import Mathlib

/-!
Verification of the two algorithmic components of this repository against its
specification:

* `flatsurf/geometry/subfield.py` — `subfield_from_elements`, which computes the
  subfield of an ambient number field generated by a list of elements, together
  with the re-expressed elements and an embedding back into the ambient field.
  The Sage primitives the code calls (rational vector spaces, `minpoly`,
  `do_polred`, `solve_left`, `random_element`, `subfield`) are external
  capabilities; they are modelled as a record of operations
  (`NumberFieldOps`), and the theorems hypothesise exactly the contracts of the
  capabilities they need.

* `flatsurf/geometry/hyperbolic.py` — the `HyperbolicPlane` hierarchy.  The
  implemented methods (`infinity`, `real`, `HyperbolicConvexSubset.intersection`,
  `HyperbolicGeodesic.end`) are embedded from the source; the methods the source
  leaves as `NotImplementedError` stubs (`projective`, `start`, `_neg_`,
  plane-level `intersection`) are modelled from the spec, as marked in their
  doc comments.
-/

/-! ### Rational coordinate vectors

`VectorSpace(QQ, self.degree())`: elements of the ambient degree-`d` field are
represented by their coordinate vectors in `ℚ^d` (`a.vector()` in Sage). -/

/-- A rational coordinate vector of length `d`, as used by
`V = VectorSpace(QQ, self.degree())` in `subfield_from_elements`. -/
abbrev Vec (d : ℕ) := Fin d → ℚ

/-- The linear combination `∑ cᵢ • rowsᵢ` of a list of vectors, the semantics of
Sage's `M.solve_left` output: `c` solves the system iff `lincomb c rows` is the
target vector. -/
def lincomb {d : ℕ} (c : List ℚ) (rows : List (Vec d)) : Vec d :=
  (List.zip c rows).foldr (fun p acc => p.1 • p.2 + acc) 0

/-- `∑ cᵢ • xsᵢ` for field elements, the element-level counterpart of `lincomb`. -/
def elemComb {K : Type} [AddCommMonoid K] [SMul ℚ K] (c : List ℚ) (xs : List K) : K :=
  (List.zip c xs).foldr (fun p acc => p.1 • p.2 + acc) 0

/-! ### The external capabilities consumed by `subfield_from_elements`

The spec (§6) lists the consumed capability surface: rational vector spaces with
subspace span/membership/dimension/basis, minimal polynomial computation,
solving linear systems over the rationals, and a `polred` routine.  A subspace
`U` is represented by its echelonized basis list (Sage's `U.basis()`), so
`U.dimension()` is the length of the list. -/

/-- The operations of the ambient number field `self` and of Sage that
`subfield_from_elements` calls.  `K` is the type of ambient field elements and
`d` is `self.degree()`. -/
structure NumberFieldOps (K : Type) (d : ℕ) where
  /-- `a.is_rational()` -/
  isRational : K → Bool
  /-- `QQ(a)` -/
  toRat : K → ℚ
  /-- `a.vector()` -/
  toVector : K → Vec d
  /-- `self(v)` for a coordinate vector `v` -/
  ofVector : Vec d → K
  /-- `V.subspace(vecs)`, returned as its echelonized basis -/
  subspaceBasis : List (Vec d) → List (Vec d)
  /-- `v in U`, where `U` is given by its basis -/
  memSubspace : Vec d → List (Vec d) → Bool
  /-- `U + V.subspace([v])`, returned as its echelonized basis -/
  sumSubspace : List (Vec d) → Vec d → List (Vec d)
  /-- `a.minpoly()`, as its coefficient list, constant coefficient first.
  The polynomial's degree is the list's length minus one. -/
  minpolyCoeffs : K → List ℚ
  /-- `U.random_element(proba=0.5, x=-s, y=s)`: the `n`-th random draw from the
  subspace with basis `U` and coefficient bound `s`.  The draw index makes the
  stream of random results an explicit input of the model. -/
  sample : ℕ → List (Vec d) → ℤ → Vec d
  /-- `do_polred(p)` (second argument `none`) or `do_polred(p, threshold)`
  (second argument `some threshold`): returns `(fwd, back, q)` as coefficient
  lists. -/
  do_polred : List ℚ → Option ℚ → List ℚ × List ℚ × List ℚ
  /-- `M.solve_left(target)` where `M` has the given rows: some solution `c`
  with `lincomb c rows = target`, or `none` when Sage would raise. -/
  solveLeft : List (Vec d) → Vec d → Option (List ℚ)

/-- Replace the random stream of `ops`, leaving every other capability as it
is.  Used to state that a run never consults the randomized fallback. -/
def NumberFieldOps.withSample {K : Type} {d : ℕ} (ops : NumberFieldOps K d)
    (s : ℕ → List (Vec d) → ℤ → Vec d) : NumberFieldOps K d :=
  { ops with sample := s }

/-- The value computed by `subfield_from_elements`.

* `rationals elts` is the triple `(QQ, elts, self.coerce_map_from(QQ))`: the
  rational field itself, the inputs coerced to rationals, and the canonical
  inclusion of the rationals into the ambient field.
* `ambient elts` is the triple `(self, alpha, Hom(self, self, Fields()).identity())`:
  the ambient field, the original elements, and the identity embedding.
* `subfield q gen elts` is the triple `(K, new_alpha, hom)` built by
  `self.subfield(new_gen, name)`: the subfield is the number field with
  defining polynomial `q` (coefficient list, constant first), `gen` is the
  image `new_gen` of its generator in the ambient field — so the embedding
  `hom` sends an element with power-basis coordinates `c` to `∑ cᵢ · genⁱ` —
  and `elts` are the coordinate vectors `M.solve_left(elt.vector())` of the
  re-expressed elements.
* `failure msg` marks a path on which the Python code would raise (fuel
  exhaustion of one of the unbounded loops, the `assert`, or `solve_left`
  failing): not a declared error path of the function. -/
inductive SubfieldResult (K : Type) where
  | rationals (elts : List ℚ)
  | ambient (elts : List K)
  | subfield (q : List ℚ) (gen : K) (elts : List (List ℚ))
  | failure (msg : String)
deriving DecidableEq

/-- Outcome of the saturation loop (`while modified: ...`). -/
inductive SatOutcome (d : ℕ) where
  | fullDegree
  | finished (U : List (Vec d)) (dim : ℕ)
  | fuelOut
deriving DecidableEq

/-- The index pairs `(i, j)` with `i ≤ j < n` in the order of
`for i in range(d): for j in range(i, d)`. -/
def saturationPairs (n : ℕ) : List (ℕ × ℕ) :=
  (List.range n).flatMap fun i => (List.range (n - i)).map fun k => (i, i + k)

/-- One pass of the inner double loop of the saturation: `B` is the basis
snapshot `B = U.basis()` taken at the start of the pass, the state is the
evolving `U` together with the `modified` flag.  For each pair `i ≤ j` the
vector of `self(B[i]) * self(B[j])` is tested for membership in the current
`U` and adjoined when missing. -/
def saturatePass {K : Type} {d : ℕ} [Mul K] (ops : NumberFieldOps K d)
    (B : List (Vec d)) : List (Vec d) × Bool :=
  (saturationPairs B.length).foldl
    (fun st p =>
      let v := ops.toVector (ops.ofVector (B.getD p.1 0) * ops.ofVector (B.getD p.2 0))
      if ops.memSubspace v st.1 then st else (ops.sumSubspace st.1 v, true))
    (B, false)

/-- The saturation loop `while modified:` of `subfield_from_elements`.  At the
start of each pass `d = U.dimension()` is compared with `self.degree()` (the
type-level `d` here); when they agree the function returns the ambient triple
(`fullDegree`).  When a pass does not modify `U` the loop exits with the basis
and the dimension read at the start of that pass.  The loop of the Python code
is unbounded; `fuel` bounds the model, and running out is `fuelOut`. -/
def saturateLoop {K : Type} {d : ℕ} [Mul K] (ops : NumberFieldOps K d) :
    ℕ → List (Vec d) → SatOutcome d
  | 0, _ => .fuelOut
  | fuel + 1, U =>
    let dim := U.length
    if dim = d then .fullDegree
    else
      let st := saturatePass ops U
      if st.2 then saturateLoop ops fuel st.1 else .finished U dim

/-- `self(b).minpoly().degree() == d`: whether the vector `b` represents a
primitive element of the saturated subspace of dimension `dim`. -/
def isPrimitiveVec {K : Type} {d : ℕ} (ops : NumberFieldOps K d) (dim : ℕ)
    (b : Vec d) : Bool :=
  (ops.minpolyCoeffs (ops.ofVector b)).length - 1 == dim

/-- The randomized fallback `s = 1; while True: vgen = U.random_element(...);
if ...: break; s *= 2`, with an explicit draw counter and fuel. -/
def randomSearch {K : Type} {d : ℕ} (ops : NumberFieldOps K d) (dim : ℕ)
    (U : List (Vec d)) : ℕ → ℕ → ℤ → Option (Vec d)
  | 0, _, _ => none
  | fuel + 1, attempt, s =>
    let v := ops.sample attempt U s
    if isPrimitiveVec ops dim v then some v
    else randomSearch ops dim U fuel (attempt + 1) (2 * s)

/-- The generator-discovery phase: first the deterministic scan
`for b in U.basis(): if self(b).minpoly().degree() == d: vgen = b; break`,
then, only when the scan found nothing, the randomized fallback starting at
bound `s = 1`. -/
def chooseGenerator {K : Type} {d : ℕ} (ops : NumberFieldOps K d) (dim : ℕ)
    (U : List (Vec d)) (fuel : ℕ) : Option (Vec d) :=
  match U.find? (isPrimitiveVec ops dim) with
  | some b => some b
  | none => randomSearch ops dim U fuel 0 1

/-- The polred branch of `subfield_from_elements`:

    if polred:
        if threshold:
            fwd, back, q = do_polred(p, threshold)
        else:
            fwd, back, q = do_polred(p)
    else:
        q = p
        fwd = back = self.polynomial_ring().gen()

A Python number is falsy exactly when it is zero, so a `threshold` of `0`
takes the no-threshold call; the generator of the polynomial ring is the
polynomial `x`, i.e. the coefficient list `[0, 1]`. -/
def polredStep {K : Type} {d : ℕ} (ops : NumberFieldOps K d) (polred : Bool)
    (threshold : Option ℚ) (p : List ℚ) : List ℚ × List ℚ × List ℚ :=
  if polred then
    match threshold with
    | some t => if t = 0 then ops.do_polred p none else ops.do_polred p (some t)
    | none => ops.do_polred p none
  else ([0, 1], [0, 1], p)

/-- Evaluation of a polynomial given by its coefficient list (constant first)
at an element of a `ℚ`-algebra; used for `fwd(gen)` and for the meaning of the
power-basis coordinates returned by the algorithm. -/
def evalPoly {K : Type} [CommRing K] [Algebra ℚ K] (c : List ℚ) (x : K) : K :=
  c.foldr (fun a acc => algebraMap ℚ K a + x * acc) 0

/-- `[f a for a in xs]` for a fallible `f`, failing when any element fails. -/
def optionMap {α β : Type} (f : α → Option β) : List α → Option (List β)
  | [] => some []
  | x :: xs =>
    match f x, optionMap f xs with
    | some y, some ys => some (y :: ys)
    | _, _ => none

/-- The embedding of `subfield_from_elements(self, alpha, name, polred,
threshold)` (src/flatsurf/geometry/subfield.py, lines 102–160).  `name` only
labels the generator of the new field and carries no mathematical content, so
it is omitted.  The two unbounded loops (saturation and the randomized
generator search) take explicit fuel; exhausting it, failing the `assert
new_gen.minpoly() == q`, or `solve_left` raising, end in `.failure`. -/
def subfield_from_elements {K : Type} {d : ℕ} [CommRing K] [Algebra ℚ K]
    (ops : NumberFieldOps K d) (alpha : List K) (polred : Bool)
    (threshold : Option ℚ) (satFuel randFuel : ℕ) : SubfieldResult K :=
  -- Rational case
  if alpha.all (fun a => ops.isRational a) then
    .rationals (alpha.map ops.toRat)
  else
    -- Saturate with multiplication
    let vecs := alpha.map ops.toVector
    match saturateLoop ops satFuel (ops.subspaceBasis vecs) with
    | .fullDegree => .ambient alpha
    | .fuelOut => .failure "saturation fuel exhausted"
    | .finished U dim =>
      -- Strict subfield, find a generator
      match chooseGenerator ops dim U randFuel with
      | none => .failure "generator search fuel exhausted"
      | some vgen =>
        -- Minimize the generator via PARI polred
        let gen := ops.ofVector vgen
        let p := ops.minpolyCoeffs gen
        let fbq := polredStep ops polred threshold p
        let new_gen := evalPoly fbq.1 gen
        if ops.minpolyCoeffs new_gen ≠ fbq.2.2 then
          .failure "assert new_gen.minpoly() == q"
        else
          -- express the elements in the basis 1, a, a^2, ..., a^(d-1)
          let rows := (List.range dim).map fun i => ops.toVector (new_gen ^ i)
          match optionMap (fun elt => ops.solveLeft rows (ops.toVector elt)) alpha with
          | none => .failure "solve_left: linear system has no solution"
          | some coords => .subfield fbq.2.2 new_gen coords

/-! ### The hyperbolic plane (`flatsurf/geometry/hyperbolic.py`)

The examples of the source fix the base ring to the rationals
(`HyperbolicPlane(QQ)` with `QQ` the default), so the model works over `ℚ`.
Points are stored as the Euclidean coordinates in the unit disc of the Klein
model, as the source's `HyperbolicPoint` docstring prescribes. -/

/-- A (possibly ideal) point of the hyperbolic plane, as its Euclidean
coordinates in the unit disc of the Klein model. -/
structure HPoint where
  x : ℚ
  y : ℚ
deriving DecidableEq

/-- Modelled from the spec: `HyperbolicPlane.projective(p, q)` is an
unimplemented stub in the source (`raise NotImplementedError`); the spec says
it constructs the ideal point with projective coordinates `[p : q]` on the
boundary of the Poincaré half plane model.  The boundary point `[p : q]` of
the half plane corresponds to the Klein-model boundary point
`(2pq/(p² + q²), (p² − q²)/(p² + q²))`; in particular `[1 : 0]` is `(0, 1)`. -/
def projective (p q : ℚ) : HPoint :=
  ⟨2 * p * q / (p ^ 2 + q ^ 2), (p ^ 2 - q ^ 2) / (p ^ 2 + q ^ 2)⟩

/-- `HyperbolicPlane.infinity`: `return self.projective(1, 0)` (from the
source). -/
def infinity : HPoint :=
  projective 1 0

/-- `HyperbolicPlane.real`: `return self.projective(r, 1)` (from the
source). -/
def realPoint (r : ℚ) : HPoint :=
  projective r 1

/-- The capabilities of the parent `HyperbolicPlane` that a convex subset
uses: the plane-level `intersection(subsets)` is an unimplemented stub in the
source, modelled from the spec as an abstract operation taking an arbitrary
collection of convex subsets of the plane to their intersection.  `S` is the
type of convex subsets of the plane. -/
structure HyperbolicPlaneOps (S : Type) where
  /-- `HyperbolicPlane.intersection(subsets)` -/
  intersection : List S → S

/-- `HyperbolicConvexSubset.intersection`: `return
self.parent().intersection([self, other])` (from the source); `plane` is the
common parent plane of both subsets. -/
def subsetIntersection {S : Type} (plane : HyperbolicPlaneOps S) (s other : S) : S :=
  plane.intersection [s, other]

/-- An oriented geodesic, represented as the chord `a + bx + cy = 0` of the
unit disc of the Klein model, the half space `a + bx + cy ≥ 0` on its left
(from the source's `HyperbolicGeodesic` docstring). -/
structure HGeodesic where
  a : ℚ
  b : ℚ
  c : ℚ
deriving DecidableEq

/-- Modelled from the spec: `HyperbolicGeodesic._neg_` is an unimplemented
stub in the source; the spec says negation reverses the orientation, i.e.
swaps which half space `a + bx + cy ≥ 0` is on the left, which negates the
defining coefficients. -/
def HGeodesic.neg (g : HGeodesic) : HGeodesic :=
  ⟨-g.a, -g.b, -g.c⟩

/-- The half-plane model equation of the geodesic: a point `x + iy` of the
upper half plane lies on it iff `A(x² + y²) + Bx + C = 0` where `(A, B, C)`
is this triple.  A Klein-model point `(x, y)` corresponds to the half-plane
point whose coordinates satisfy `x_K = 2x/(1 + x² + y²)`,
`y_K = (x² + y² − 1)/(1 + x² + y²)`, under which `a + b·x_K + c·y_K ≥ 0`
becomes `(a + c)(x² + y²) + 2bx + (a − c) ≥ 0` (the `equation` method's
contract in the source). -/
def HGeodesic.halfPlaneCoeffs (g : HGeodesic) : ℚ × ℚ × ℚ :=
  (g.a + g.c, 2 * g.b, g.a - g.c)

/-- The Euclidean center of the geodesic as a half circle in the half plane
model: `-B/(2A) = -b/(a + c)`. -/
def HGeodesic.center (g : HGeodesic) : ℚ :=
  -g.b / (g.a + g.c)

/-- The square of the Euclidean radius of the geodesic as a half circle in
the half plane model: `(B² − 4AC)/(4A²) = (b² + c² − a²)/(a + c)²`. -/
def HGeodesic.radiusSquared (g : HGeodesic) : ℚ :=
  (g.b ^ 2 + g.c ^ 2 - g.a ^ 2) / (g.a + g.c) ^ 2

/-- The exact square root of a rational number: `some r` with `r * r = q`
when `q` is a perfect square in `ℚ`, `none` otherwise.  The candidate is
built from the integer square roots of the numerator and denominator and
verified exactly, so a `some` answer is correct by construction. -/
def ratSqrt (q : ℚ) : Option ℚ :=
  let r : ℚ := (Nat.sqrt q.num.natAbs : ℚ) / (Nat.sqrt q.den : ℚ)
  if r * r = q then some r else none

/-- Modelled from the spec: `HyperbolicGeodesic.start` is an unimplemented
stub in the source; its docstring and the spec require the ideal starting
point, which exists over the base ring only when the radius of the geodesic
is a square there, and an error otherwise ("ideal endpoint not expressible
over base ring" — ring-extension required, never an approximation).

A geodesic with `a + c = 0` is a vertical line of the half plane model, whose
ideal endpoints (the real point `-C/B` and the point at infinity, ordered by
the orientation) need no square root; otherwise the endpoints are
`center ∓ √radiusSquared`, with the sign fixed by the orientation. -/
def HGeodesic.start (g : HGeodesic) : Except String HPoint :=
  if g.a + g.c = 0 then
    if 0 < g.b then .ok (realPoint ((g.c - g.a) / (2 * g.b))) else .ok infinity
  else
    match ratSqrt g.radiusSquared with
    | some r => .ok (realPoint (g.center + (if 0 < g.a + g.c then -r else r)))
    | none => .error "ideal endpoint not expressible over base ring"

/-- `HyperbolicGeodesic.end`: `return (-self).start()` (from the source). -/
def HGeodesic.endPoint (g : HGeodesic) : Except String HPoint :=
  g.neg.start

/-! ### An executable linear solver over `ℚ`

Concrete capability instances need a working `solve_left` / membership test.
The solver below does plain Gaussian elimination while tracking how each pivot
is a combination of the original rows; instances wrap its answer in an exact
verification (`lincomb c rows = target`), so its soundness is by construction
and no correctness proof of the elimination itself is needed. -/

/-- `a - f • b` componentwise on coefficient lists of equal length. -/
def listSubScale (a : List ℚ) (f : ℚ) (b : List ℚ) : List ℚ :=
  List.zipWith (fun x y => x - f * y) a b

/-- The `i`-th standard coefficient list of length `n`. -/
def unitComb (n i : ℕ) : List ℚ :=
  (List.range n).map fun j => if j = i then 1 else 0

/-- Reduce the pair (vector, coefficients over the original rows) by the
accumulated pivots; each pivot is (vector, coefficients, pivot column) with
entry `1` in its pivot column. -/
def reduceByPivots {d : ℕ} (P : List (Vec d × List ℚ × Fin d))
    (vc : Vec d × List ℚ) : Vec d × List ℚ :=
  P.foldl
    (fun st piv =>
      let f := st.1 piv.2.2
      (st.1 - f • piv.1, listSubScale st.2 f piv.2.1))
    vc

/-- The first nonzero coordinate of a vector, if any. -/
def vecPivot {d : ℕ} (v : Vec d) : Option (Fin d) :=
  (List.finRange d).find? fun i => v i ≠ 0

/-- Gaussian elimination of the rows, each pivot remembering its expression in
the original rows. -/
def buildPivots {d : ℕ} (rows : List (Vec d)) : List (Vec d × List ℚ × Fin d) :=
  (rows.enum).foldl
    (fun P ri =>
      let vc := reduceByPivots P (ri.2, unitComb rows.length ri.1)
      match vecPivot vc.1 with
      | none => P
      | some i => P ++ [((vc.1 i)⁻¹ • vc.1, vc.2.map (fun x => (vc.1 i)⁻¹ * x), i)])
    []

/-- Solve `lincomb c rows = target` by reducing `target` with the pivots of
`rows`; `c` accumulates the pivot coefficients used.  Returns `none` when a
nonzero residue remains. -/
def gaussSolve {d : ℕ} (rows : List (Vec d)) (target : Vec d) : Option (List ℚ) :=
  let P := buildPivots rows
  let vc := P.foldl
    (fun (st : Vec d × List ℚ) piv =>
      let f := st.1 piv.2.2
      (st.1 - f • piv.1, List.zipWith (fun x y => x + f * y) st.2 piv.2.1))
    (target, List.replicate rows.length (0 : ℚ))
  if vc.1 = 0 then some vc.2 else none

/-! ### Coefficient lists and polynomials

The bridge between the coefficient-list representation used by the embedded
code (`minpolyCoeffs`, `do_polred`) and `Mathlib`'s polynomials, for stating
what the capabilities mean. -/

/-- The coefficient list (constant coefficient first) of a polynomial, of
length `natDegree + 1`: how Sage's `a.minpoly()` is read as a `List ℚ`. -/
noncomputable def polyToList (p : Polynomial ℚ) : List ℚ :=
  (List.range (p.natDegree + 1)).map fun i => p.coeff i

/-- The polynomial with the given coefficient list, constant coefficient
first. -/
noncomputable def listToPoly (c : List ℚ) : Polynomial ℚ :=
  ∑ i ∈ Finset.range c.length, Polynomial.C (c.getD i 0) * Polynomial.X ^ i

/-- The postcondition of `subfield_from_elements` stated per result shape (the
spec's §4.1: "the embedding maps the returned subfield isomorphically into
`ambient_field`; applying the embedding to each re-expressed element reproduces
the corresponding original element exactly", and §8: "`φ` is injective,
`φ(E'[i]) == E[i]` for all `i`, and `L`'s degree divides `K`'s degree").

* For the rational triple, the subfield is `ℚ` itself (degree `1`), the
  embedding is the canonical inclusion `algebraMap ℚ K`.
* For the ambient triple, the subfield is `K` and the embedding the identity.
* For a constructed subfield, the subfield `L` is the number field
  `ℚ[x]/(q)` — `AdjoinRoot (listToPoly q)`, a field because `q` is
  irreducible — and the embedding is a ring homomorphism `L →+* K` sending
  the class of a polynomial to its value at `gen`; it is injective, sends the
  `i`-th re-expressed element (the class of its coordinate list) to the `i`-th
  input element, and the degree of `L` (the degree of `q`) divides the degree
  of `K`.
* A raising path returns nothing, so the postcondition on the returned triple
  holds vacuously. -/
def SubfieldResultSound {K : Type} [Field K] [Algebra ℚ K] (alpha : List K) :
    SubfieldResult K → Prop
  | .rationals elts =>
      Function.Injective (algebraMap ℚ K) ∧
      List.Forall₂ (fun e a => algebraMap ℚ K e = a) elts alpha ∧
      1 ∣ Module.finrank ℚ K
  | .ambient elts =>
      Function.Injective (fun x : K => x) ∧ elts = alpha ∧
      Module.finrank ℚ K ∣ Module.finrank ℚ K
  | .subfield q gen elts =>
      Irreducible (listToPoly q) ∧
      ∃ Φ : AdjoinRoot (listToPoly q) →+* K,
        Function.Injective Φ ∧
        (∀ y : Polynomial ℚ, Φ (AdjoinRoot.mk (listToPoly q) y) = Polynomial.aeval gen y) ∧
        List.Forall₂ (fun c a => Φ (AdjoinRoot.mk (listToPoly q) (listToPoly c)) = a)
          elts alpha ∧
        (listToPoly q).natDegree ∣ Module.finrank ℚ K
  | .failure _ => True

/-! ### Shared executable subspace capabilities

The concrete capability instances below represent a subspace by the list of
vectors accumulated so far and answer membership through `gaussSolve`; the
solver used for `solve_left` verifies its answer exactly before returning it,
so its soundness needs no proof about the elimination. -/

/-- Adjoin a vector to a basis list unless it already lies in the span. -/
def echelonInsert {d : ℕ} (B : List (Vec d)) (v : Vec d) : List (Vec d) :=
  if (gaussSolve B v).isSome then B else B ++ [v]

/-- A basis list for the span of the given vectors. -/
def listSpanBasis {d : ℕ} (vs : List (Vec d)) : List (Vec d) :=
  vs.foldl echelonInsert []

/-- `gaussSolve` with its answer verified exactly: a `some c` satisfies
`c.length = rows.length` and `lincomb c rows = target` by construction. -/
def checkedSolve {d : ℕ} (rows : List (Vec d)) (target : Vec d) : Option (List ℚ) :=
  match gaussSolve rows target with
  | some c => if c.length = rows.length ∧ lincomb c rows = target then some c else none
  | none => none

/-! ### A concrete ambient field: `ℚ(√2)`

A computable model of the quadratic number field `ℚ(√2)`, used to instantiate
the capability record with fully lawful operations. -/

/-- An element `re + im·√2` of `ℚ(√2)`. -/
structure Q2 where
  re : ℚ
  im : ℚ
deriving DecidableEq

theorem Q2.ext2 {x y : Q2} (h1 : x.re = y.re) (h2 : x.im = y.im) : x = y := by
  cases x; cases y; cases h1; cases h2; rfl

instance : Zero Q2 := ⟨⟨0, 0⟩⟩

instance : One Q2 := ⟨⟨1, 0⟩⟩

instance : Add Q2 := ⟨fun x y => ⟨x.re + y.re, x.im + y.im⟩⟩

instance : Neg Q2 := ⟨fun x => ⟨-x.re, -x.im⟩⟩

instance : Mul Q2 := ⟨fun x y => ⟨x.re * y.re + 2 * x.im * y.im, x.re * y.im + x.im * y.re⟩⟩

@[simp] theorem Q2.zero_re : (0 : Q2).re = 0 := rfl

@[simp] theorem Q2.zero_im : (0 : Q2).im = 0 := rfl

@[simp] theorem Q2.one_re : (1 : Q2).re = 1 := rfl

@[simp] theorem Q2.one_im : (1 : Q2).im = 0 := rfl

@[simp] theorem Q2.add_re (x y : Q2) : (x + y).re = x.re + y.re := rfl

@[simp] theorem Q2.add_im (x y : Q2) : (x + y).im = x.im + y.im := rfl

@[simp] theorem Q2.neg_re (x : Q2) : (-x).re = -x.re := rfl

@[simp] theorem Q2.neg_im (x : Q2) : (-x).im = -x.im := rfl

@[simp] theorem Q2.mul_re (x y : Q2) : (x * y).re = x.re * y.re + 2 * x.im * y.im := rfl

@[simp] theorem Q2.mul_im (x y : Q2) : (x * y).im = x.re * y.im + x.im * y.re := rfl

instance : CommRing Q2 where
  add_assoc := by intros; apply Q2.ext2 <;> simp <;> ring
  zero_add := by intros; apply Q2.ext2 <;> simp
  add_zero := by intros; apply Q2.ext2 <;> simp
  add_comm := by intros; apply Q2.ext2 <;> simp <;> ring
  left_distrib := by intros; apply Q2.ext2 <;> simp <;> ring
  right_distrib := by intros; apply Q2.ext2 <;> simp <;> ring
  zero_mul := by intros; apply Q2.ext2 <;> simp
  mul_zero := by intros; apply Q2.ext2 <;> simp
  mul_assoc := by intros; apply Q2.ext2 <;> simp <;> ring
  one_mul := by intros; apply Q2.ext2 <;> simp
  mul_one := by intros; apply Q2.ext2 <;> simp
  neg_add_cancel := by intros; apply Q2.ext2 <;> simp
  mul_comm := by intros; apply Q2.ext2 <;> simp <;> ring
  nsmul := nsmulRec
  zsmul := zsmulRec

/-- There is no rational square root of `2`. -/
theorem rat_sq_ne_two (r : ℚ) : r * r ≠ 2 := by
  intro h
  have h1 : r.num * r.num = 2 := by
    have h0 := Rat.mul_self_num r
    rw [h] at h0
    simpa using h0.symm
  have h2 : r.num.natAbs * r.num.natAbs = 2 := by
    have h0 := congrArg Int.natAbs h1
    simpa [Int.natAbs_mul] using h0
  rcases le_or_lt r.num.natAbs 1 with hle | hlt
  · have := Nat.mul_le_mul hle hle
    omega
  · have := Nat.mul_le_mul hlt hlt
    omega

/-- The norm `re² − 2·im²` of an element of `ℚ(√2)` vanishes only at `0`,
because `2` has no rational square root. -/
theorem Q2.norm_ne_zero {x : Q2} (hx : x ≠ 0) : x.re ^ 2 - 2 * x.im ^ 2 ≠ 0 := by
  intro h
  by_cases him : x.im = 0
  · apply hx
    apply Q2.ext2 _ him
    have : x.re ^ 2 = 0 := by rw [him] at h; linarith
    simpa using pow_eq_zero_iff (n := 2) (by norm_num) |>.mp this
  · apply rat_sq_ne_two (x.re / x.im)
    field_simp
    linarith

instance : Inv Q2 :=
  ⟨fun x => ⟨x.re / (x.re ^ 2 - 2 * x.im ^ 2), -x.im / (x.re ^ 2 - 2 * x.im ^ 2)⟩⟩

@[simp] theorem Q2.inv_re (x : Q2) : x⁻¹.re = x.re / (x.re ^ 2 - 2 * x.im ^ 2) := rfl

@[simp] theorem Q2.inv_im (x : Q2) : x⁻¹.im = -x.im / (x.re ^ 2 - 2 * x.im ^ 2) := rfl

instance : Field Q2 where
  exists_pair_ne := ⟨0, 1, by intro h; exact one_ne_zero (congrArg Q2.re h).symm⟩
  mul_inv_cancel := by
    intro a ha
    have hN := Q2.norm_ne_zero ha
    apply Q2.ext2 <;> simp <;> field_simp <;> ring
  inv_zero := by apply Q2.ext2 <;> simp
  nnqsmul := _
  qsmul := _

/-- The canonical inclusion of the rationals into `ℚ(√2)`. -/
def ratHomQ2 : ℚ →+* Q2 where
  toFun r := ⟨r, 0⟩
  map_one' := rfl
  map_mul' := by intros; apply Q2.ext2 <;> simp
  map_zero' := rfl
  map_add' := by intros; apply Q2.ext2 <;> simp

instance : Algebra ℚ Q2 := ratHomQ2.toAlgebra

@[simp] theorem Q2.algebraMap_apply (r : ℚ) : algebraMap ℚ Q2 r = ⟨r, 0⟩ := rfl

@[simp] theorem Q2.ratCast_re (r : ℚ) : (r : Q2).re = r := by
  rw [← eq_ratCast ratHomQ2 r]
  rfl

@[simp] theorem Q2.ratCast_im (r : ℚ) : (r : Q2).im = 0 := by
  rw [← eq_ratCast ratHomQ2 r]
  rfl

@[simp] theorem Q2.sub_re (x y : Q2) : (x - y).re = x.re - y.re := by
  rw [sub_eq_add_neg, sub_eq_add_neg, Q2.add_re, Q2.neg_re]

@[simp] theorem Q2.sub_im (x y : Q2) : (x - y).im = x.im - y.im := by
  rw [sub_eq_add_neg, sub_eq_add_neg, Q2.add_im, Q2.neg_im]

@[simp] theorem Q2.smul_re (r : ℚ) (x : Q2) : (r • x).re = r * x.re := by
  rw [Algebra.smul_def, Q2.algebraMap_apply, Q2.mul_re]
  simp

@[simp] theorem Q2.smul_im (r : ℚ) (x : Q2) : (r • x).im = r * x.im := by
  rw [Algebra.smul_def, Q2.algebraMap_apply, Q2.mul_im]
  simp

/-- `ℚ(√2)` with basis `1, √2` is the plane `ℚ²`. -/
def q2LinEquiv : Q2 ≃ₗ[ℚ] (Fin 2 → ℚ) where
  toFun x := ![x.re, x.im]
  map_add' := by intros; funext i; fin_cases i <;> simp
  map_smul' := by intros; funext i; fin_cases i <;> simp
  invFun v := ⟨v 0, v 1⟩
  left_inv := by intro x; apply Q2.ext2 <;> rfl
  right_inv := by intro v; funext i; fin_cases i <;> rfl

instance : Module.Finite ℚ Q2 := Module.Finite.equiv q2LinEquiv.symm

theorem q2_finrank : Module.finrank ℚ Q2 = 2 := by
  rw [q2LinEquiv.finrank_eq]
  simp

theorem q2_mem_range_iff (x : Q2) : x ∈ (algebraMap ℚ Q2).range ↔ x.im = 0 := by
  constructor
  · rintro ⟨r, rfl⟩
    rfl
  · intro h
    refine ⟨x.re, ?_⟩
    apply Q2.ext2 <;> simp [h]

/-- `√2` in the model of `ℚ(√2)`. -/
def sqrt2 : Q2 := ⟨0, 1⟩

theorem q2_isIntegral (x : Q2) : IsIntegral ℚ x := IsIntegral.of_finite ℚ x

/-- The minimal polynomial of a rational element of `ℚ(√2)`. -/
theorem q2_minpoly_rat (a : ℚ) :
    minpoly ℚ (⟨a, 0⟩ : Q2) = Polynomial.X - Polynomial.C a := by
  have h : (⟨a, 0⟩ : Q2) = algebraMap ℚ Q2 a := rfl
  rw [h, minpoly.eq_X_sub_C]

/-- The minimal polynomial of an irrational element `a + b√2` of `ℚ(√2)` is
`x² − 2a·x + (a² − 2b²)`. -/
theorem q2_minpoly_irrational (a b : ℚ) (hb : b ≠ 0) :
    minpoly ℚ (⟨a, b⟩ : Q2) =
      Polynomial.X ^ 2 - Polynomial.C (2 * a) * Polynomial.X +
        Polynomial.C (a ^ 2 - 2 * b ^ 2) := by
  set x : Q2 := ⟨a, b⟩ with hx
  set p : Polynomial ℚ :=
    Polynomial.X ^ 2 - Polynomial.C (2 * a) * Polynomial.X +
      Polynomial.C (a ^ 2 - 2 * b ^ 2) with hp
  have hform : p = Polynomial.C 1 * Polynomial.X ^ 2 + Polynomial.C (-(2 * a)) * Polynomial.X +
      Polynomial.C (a ^ 2 - 2 * b ^ 2) := by
    rw [hp, map_neg, map_one]; ring
  have hpdeg : p.natDegree = 2 := by
    rw [hform]
    exact Polynomial.natDegree_quadratic one_ne_zero
  have hmonic : p.Monic := by
    have hc2 : p.coeff 2 = 1 := by
      rw [hp]
      simp only [Polynomial.coeff_add, Polynomial.coeff_sub, Polynomial.coeff_X_pow,
        Polynomial.coeff_C_mul, Polynomial.coeff_X, Polynomial.coeff_C]
      norm_num
    rwa [Polynomial.Monic, Polynomial.leadingCoeff, hpdeg]
  have haeval : Polynomial.aeval x p = 0 := by
    have hev : Polynomial.aeval x p =
        x * x - algebraMap ℚ Q2 (2 * a) * x + algebraMap ℚ Q2 (a ^ 2 - 2 * b ^ 2) := by
      rw [hp]
      simp only [map_add, map_sub, map_mul, map_pow, Polynomial.aeval_X, Polynomial.aeval_C]
      rw [pow_two]
    rw [hev]
    apply Q2.ext2 <;>
      simp only [Q2.algebraMap_apply, Q2.add_re, Q2.add_im, Q2.sub_re, Q2.sub_im,
        Q2.mul_re, Q2.mul_im, Q2.zero_re, Q2.zero_im, hx] <;>
      ring
  have hint := q2_isIntegral x
  have hdvd : minpoly ℚ x ∣ p := minpoly.dvd ℚ x haeval
  have hle : (minpoly ℚ x).natDegree ≤ 2 := by
    have h := minpoly.natDegree_le (K := ℚ) x
    rwa [q2_finrank] at h
  have hge : 2 ≤ (minpoly ℚ x).natDegree := by
    rw [minpoly.two_le_natDegree_iff hint, q2_mem_range_iff]
    exact hb
  have hdeg : (minpoly ℚ x).natDegree = 2 := le_antisymm hle hge
  obtain ⟨c, hc⟩ := hdvd
  have hmpm : (minpoly ℚ x).Monic := minpoly.monic hint
  have hc0 : c ≠ 0 := by
    rintro rfl
    rw [mul_zero] at hc
    exact hmonic.ne_zero hc
  have hdegs : p.natDegree = (minpoly ℚ x).natDegree + c.natDegree := by
    rw [hc, Polynomial.natDegree_mul hmpm.ne_zero hc0]
  have hcdeg : c.natDegree = 0 := by omega
  have hcC : c = Polynomial.C (c.coeff 0) := Polynomial.eq_C_of_natDegree_eq_zero hcdeg
  have hlead : c.coeff 0 = 1 := by
    have h1 : p.leadingCoeff = 1 := hmonic
    rw [hc, Polynomial.leadingCoeff_mul, hmpm.leadingCoeff, one_mul] at h1
    rw [Polynomial.leadingCoeff, hcdeg] at h1
    exact h1
  rw [hc, hcC, hlead, map_one, mul_one]

theorem polyToList_X_sub_C (a : ℚ) :
    polyToList (Polynomial.X - Polynomial.C a) = [-a, 1] := by
  unfold polyToList
  rw [Polynomial.natDegree_X_sub_C]
  have h2 : List.range 2 = [0, 1] := rfl
  rw [h2]
  simp [Polynomial.coeff_sub, Polynomial.coeff_X, Polynomial.coeff_C]

theorem quad_natDegree (u v : ℚ) :
    (Polynomial.X ^ 2 - Polynomial.C u * Polynomial.X + Polynomial.C v).natDegree = 2 := by
  have hform : Polynomial.X ^ 2 - Polynomial.C u * Polynomial.X + Polynomial.C v =
      Polynomial.C 1 * Polynomial.X ^ 2 + Polynomial.C (-u) * Polynomial.X +
        Polynomial.C v := by
    rw [map_neg, map_one]; ring
  rw [hform]
  exact Polynomial.natDegree_quadratic one_ne_zero

theorem polyToList_quadratic (u v : ℚ) :
    polyToList (Polynomial.X ^ 2 - Polynomial.C u * Polynomial.X + Polynomial.C v) =
      [v, -u, 1] := by
  unfold polyToList
  rw [quad_natDegree]
  have h3 : List.range 3 = [0, 1, 2] := rfl
  rw [h3]
  simp [Polynomial.coeff_add, Polynomial.coeff_sub, Polynomial.coeff_X_pow,
    Polynomial.coeff_C_mul, Polynomial.coeff_X, Polynomial.coeff_C]

/-- The executable `minpoly` oracle of the `ℚ(√2)` instance. -/
def q2MinpolyCoeffs (x : Q2) : List ℚ :=
  if x.im = 0 then [-x.re, 1] else [x.re ^ 2 - 2 * x.im ^ 2, -(2 * x.re), 1]

/-- The oracle returns exactly the coefficient list of the minimal
polynomial. -/
theorem q2MinpolyCoeffs_lawful (x : Q2) :
    q2MinpolyCoeffs x = polyToList (minpoly ℚ x) := by
  obtain ⟨a, b⟩ := x
  unfold q2MinpolyCoeffs
  by_cases h : b = 0
  · subst h
    rw [if_pos rfl, q2_minpoly_rat, polyToList_X_sub_C]
  · rw [if_neg h, q2_minpoly_irrational a b h, polyToList_quadratic]

/-- The full capability instance over `ℚ(√2)` (`self.degree() = 2`).  The
subspace operations answer through the exact Gaussian solver; `solve_left`
double-checks its solutions, so they are right by construction; `do_polred`
is the identity reduction (`fwd = back = x`, `q = p`), which satisfies the
polred contract whenever it is hypothesised; the random stream is constantly
zero (no theorem about this instance relies on it). -/
def q2Ops : NumberFieldOps Q2 2 where
  isRational x := x.im == 0
  toRat x := x.re
  toVector x := ![x.re, x.im]
  ofVector v := ⟨v 0, v 1⟩
  subspaceBasis := listSpanBasis
  memSubspace v U := (gaussSolve U v).isSome
  sumSubspace := echelonInsert
  minpolyCoeffs := q2MinpolyCoeffs
  sample _ _ _ := 0
  do_polred p _ := ([0, 1], [0, 1], p)
  solveLeft := checkedSolve

theorem q2Ops_toVector_add (x y : Q2) :
    q2Ops.toVector (x + y) = q2Ops.toVector x + q2Ops.toVector y := by
  funext i
  fin_cases i <;> simp [q2Ops]

theorem q2Ops_toVector_smul (r : ℚ) (x : Q2) :
    q2Ops.toVector (r • x) = r • q2Ops.toVector x := by
  funext i
  fin_cases i <;> simp [q2Ops]

theorem q2Ops_toVector_injective : Function.Injective q2Ops.toVector := by
  intro x y h
  apply Q2.ext2
  · exact congrFun h 0
  · exact congrFun h 1

theorem q2Ops_isRational_sound (x : Q2) (h : q2Ops.isRational x = true) :
    algebraMap ℚ Q2 (q2Ops.toRat x) = x := by
  have him : x.im = 0 := by simpa [q2Ops] using h
  apply Q2.ext2 <;> simp [q2Ops, him]

/-- Solutions of `checkedSolve` satisfy the system by construction. -/
theorem checkedSolve_sound {d : ℕ} (rows : List (Vec d)) (target : Vec d)
    (c : List ℚ) (h : checkedSolve rows target = some c) :
    c.length = rows.length ∧ lincomb c rows = target := by
  unfold checkedSolve at h
  rcases hg : gaussSolve rows target with _ | c₀ <;> rw [hg] at h
  · exact absurd h (by simp)
  · dsimp only at h
    split at h
    · cases h
      assumption
    · exact absurd h (by simp)

/-! ### Bridging lemmas

Relating the coefficient-list data of the embedded algorithm to linear
combinations, polynomial evaluation and `Mathlib` polynomials. -/

theorem optionMap_forall₂ {α β : Type} (f : α → Option β) :
    ∀ (xs : List α) (ys : List β), optionMap f xs = some ys →
      List.Forall₂ (fun x y => f x = some y) xs ys
  | [], ys, h => by
    cases h
    exact List.Forall₂.nil
  | x :: xs, ys, h => by
    unfold optionMap at h
    rcases hf : f x with _ | y <;> rw [hf] at h
    · exact absurd h (by simp)
    · rcases hm : optionMap f xs with _ | ys' <;> rw [hm] at h
      · exact absurd h (by simp)
      · dsimp only at h
        cases h
        exact List.Forall₂.cons hf (optionMap_forall₂ f xs ys' hm)

theorem optionMap_isSome {α β : Type} (f : α → Option β) :
    ∀ xs : List α, (∀ x ∈ xs, (f x).isSome) → (optionMap f xs).isSome
  | [], _ => by simp [optionMap]
  | x :: xs, h => by
    unfold optionMap
    rcases hf : f x with _ | y
    · have := h x (by simp)
      rw [hf] at this
      exact absurd this (by simp)
    · have hrec := optionMap_isSome f xs (fun z hz => h z (by simp [hz]))
      rcases hm : optionMap f xs with _ | ys
      · rw [hm] at hrec
        exact absurd hrec (by simp)
      · simp

theorem lincomb_map {K : Type} {d : ℕ} [AddCommMonoid K] [Module ℚ K] (tv : K → Vec d)
    (hadd : ∀ x y, tv (x + y) = tv x + tv y)
    (hsmul : ∀ (r : ℚ) (x : K), tv (r • x) = r • tv x) :
    ∀ (c : List ℚ) (xs : List K), lincomb c (xs.map tv) = tv (elemComb c xs) := by
  have h0 : tv 0 = 0 := by
    have h := hsmul 0 0
    rw [zero_smul, zero_smul] at h
    exact h
  intro c
  induction c with
  | nil => intro xs; simp [lincomb, elemComb, h0]
  | cons a c ih =>
    intro xs
    cases xs with
    | nil => simp [lincomb, elemComb, h0]
    | cons x xs =>
      show (a : ℚ) • tv x + lincomb c (xs.map tv) = tv (a • x + elemComb c xs)
      rw [ih xs, hadd, hsmul]

theorem elemComb_mul_left {K : Type} [CommRing K] [Algebra ℚ K] (g : K) :
    ∀ (c : List ℚ) (ys : List K), elemComb c (ys.map fun y => g * y) = g * elemComb c ys := by
  intro c
  induction c with
  | nil => intro ys; simp [elemComb]
  | cons a c ih =>
    intro ys
    cases ys with
    | nil => simp [elemComb]
    | cons y ys =>
      show (a : ℚ) • (g * y) + elemComb c (ys.map fun y => g * y) = g * (a • y + elemComb c ys)
      rw [ih ys, mul_add, mul_smul_comm]

theorem elemComb_powers {K : Type} [CommRing K] [Algebra ℚ K] (g : K) :
    ∀ c : List ℚ, elemComb c ((List.range c.length).map fun i => g ^ i) = evalPoly c g := by
  intro c
  induction c with
  | nil => rfl
  | cons a c ih =>
    rw [List.length_cons, List.range_succ_eq_map, List.map_cons, List.map_map]
    have hmap : (List.range c.length).map ((fun i => g ^ i) ∘ Nat.succ) =
        ((List.range c.length).map fun i => g ^ i).map fun y => g * y := by
      rw [List.map_map]
      apply List.map_congr_left
      intro i _
      simp [Function.comp, pow_succ, mul_comm]
    rw [hmap]
    show (a : ℚ) • (g ^ 0) + elemComb c _ = evalPoly (a :: c) g
    rw [elemComb_mul_left, ih, pow_zero]
    show a • (1 : K) + g * evalPoly c g = algebraMap ℚ K a + g * evalPoly c g
    rw [Algebra.algebraMap_eq_smul_one]

theorem listToPoly_nil : listToPoly [] = 0 := by
  simp [listToPoly]

theorem listToPoly_cons (a : ℚ) (c : List ℚ) :
    listToPoly (a :: c) = Polynomial.C a + Polynomial.X * listToPoly c := by
  unfold listToPoly
  rw [List.length_cons, Finset.sum_range_succ']
  simp only [List.getD_cons_succ, List.getD_cons_zero, pow_zero, mul_one]
  rw [Finset.mul_sum, add_comm]
  congr 1
  apply Finset.sum_congr rfl
  intro i _
  ring

theorem evalPoly_eq_aeval {K : Type} [CommRing K] [Algebra ℚ K] (x : K) :
    ∀ c : List ℚ, evalPoly c x = Polynomial.aeval x (listToPoly c)
  | [] => by simp [evalPoly, listToPoly_nil]
  | a :: c => by
    rw [listToPoly_cons, map_add, map_mul, Polynomial.aeval_X, Polynomial.aeval_C]
    show algebraMap ℚ K a + x * evalPoly c x = _
    rw [evalPoly_eq_aeval x c]

theorem polyToList_length (p : Polynomial ℚ) :
    (polyToList p).length = p.natDegree + 1 := by
  simp [polyToList]

theorem listToPoly_polyToList (p : Polynomial ℚ) : listToPoly (polyToList p) = p := by
  unfold listToPoly polyToList
  rw [List.length_map, List.length_range]
  have hgd : ∀ i ∈ Finset.range (p.natDegree + 1),
      ((List.range (p.natDegree + 1)).map fun j => p.coeff j).getD i 0 = p.coeff i := by
    intro i hi
    rw [Finset.mem_range] at hi
    rw [List.getD_eq_getElem?_getD, List.getElem?_map, List.getElem?_range hi]
    rfl
  rw [Finset.sum_congr rfl fun i hi => by rw [hgd i hi]]
  conv_rhs => rw [Polynomial.as_sum_range p]
  apply Finset.sum_congr rfl
  intro i _
  rw [Polynomial.C_mul_X_pow_eq_monomial]

/-- `fwd = self.polynomial_ring().gen()` is the identity substitution: the
coefficient list `[0, 1]` evaluates to its argument. -/
theorem evalPoly_X_list {K : Type} [CommRing K] [Algebra ℚ K] (x : K) :
    evalPoly [0, 1] x = x := by
  show algebraMap ℚ K 0 + x * (algebraMap ℚ K 1 + x * 0) = x
  rw [map_zero, map_one, mul_zero, add_zero, mul_one, zero_add]

/-! ### A concrete degree-4 ambient field: `ℚ(√2, √3)`

A computable model of `ℚ(√2, √3)` with basis `1, √2, √3, √6`, used to drive a
run of the algorithm all the way into the constructed-subfield branch (the
elements `√2` generate the strict subfield `ℚ(√2)` of degree `2 < 4`).  Only
the ring structure is needed to run the algorithm. -/

/-- An element `c1 + c2·√2 + c3·√3 + c6·√6` of `ℚ(√2, √3)`. -/
structure K4 where
  c1 : ℚ
  c2 : ℚ
  c3 : ℚ
  c6 : ℚ
deriving DecidableEq

theorem K4.ext4 {x y : K4} (h1 : x.c1 = y.c1) (h2 : x.c2 = y.c2) (h3 : x.c3 = y.c3)
    (h6 : x.c6 = y.c6) : x = y := by
  cases x; cases y; cases h1; cases h2; cases h3; cases h6; rfl

instance : Zero K4 := ⟨⟨0, 0, 0, 0⟩⟩

instance : One K4 := ⟨⟨1, 0, 0, 0⟩⟩

instance : Add K4 := ⟨fun x y => ⟨x.c1 + y.c1, x.c2 + y.c2, x.c3 + y.c3, x.c6 + y.c6⟩⟩

instance : Neg K4 := ⟨fun x => ⟨-x.c1, -x.c2, -x.c3, -x.c6⟩⟩

instance : Mul K4 :=
  ⟨fun x y =>
    ⟨x.c1 * y.c1 + 2 * x.c2 * y.c2 + 3 * x.c3 * y.c3 + 6 * x.c6 * y.c6,
     x.c1 * y.c2 + x.c2 * y.c1 + 3 * (x.c3 * y.c6 + x.c6 * y.c3),
     x.c1 * y.c3 + x.c3 * y.c1 + 2 * (x.c2 * y.c6 + x.c6 * y.c2),
     x.c1 * y.c6 + x.c6 * y.c1 + x.c2 * y.c3 + x.c3 * y.c2⟩⟩

@[simp] theorem K4.zero_c1 : (0 : K4).c1 = 0 := rfl

@[simp] theorem K4.zero_c2 : (0 : K4).c2 = 0 := rfl

@[simp] theorem K4.zero_c3 : (0 : K4).c3 = 0 := rfl

@[simp] theorem K4.zero_c6 : (0 : K4).c6 = 0 := rfl

@[simp] theorem K4.one_c1 : (1 : K4).c1 = 1 := rfl

@[simp] theorem K4.one_c2 : (1 : K4).c2 = 0 := rfl

@[simp] theorem K4.one_c3 : (1 : K4).c3 = 0 := rfl

@[simp] theorem K4.one_c6 : (1 : K4).c6 = 0 := rfl

@[simp] theorem K4.add_c1 (x y : K4) : (x + y).c1 = x.c1 + y.c1 := rfl

@[simp] theorem K4.add_c2 (x y : K4) : (x + y).c2 = x.c2 + y.c2 := rfl

@[simp] theorem K4.add_c3 (x y : K4) : (x + y).c3 = x.c3 + y.c3 := rfl

@[simp] theorem K4.add_c6 (x y : K4) : (x + y).c6 = x.c6 + y.c6 := rfl

@[simp] theorem K4.neg_c1 (x : K4) : (-x).c1 = -x.c1 := rfl

@[simp] theorem K4.neg_c2 (x : K4) : (-x).c2 = -x.c2 := rfl

@[simp] theorem K4.neg_c3 (x : K4) : (-x).c3 = -x.c3 := rfl

@[simp] theorem K4.neg_c6 (x : K4) : (-x).c6 = -x.c6 := rfl

@[simp] theorem K4.mul_c1 (x y : K4) :
    (x * y).c1 = x.c1 * y.c1 + 2 * x.c2 * y.c2 + 3 * x.c3 * y.c3 + 6 * x.c6 * y.c6 := rfl

@[simp] theorem K4.mul_c2 (x y : K4) :
    (x * y).c2 = x.c1 * y.c2 + x.c2 * y.c1 + 3 * (x.c3 * y.c6 + x.c6 * y.c3) := rfl

@[simp] theorem K4.mul_c3 (x y : K4) :
    (x * y).c3 = x.c1 * y.c3 + x.c3 * y.c1 + 2 * (x.c2 * y.c6 + x.c6 * y.c2) := rfl

@[simp] theorem K4.mul_c6 (x y : K4) :
    (x * y).c6 = x.c1 * y.c6 + x.c6 * y.c1 + x.c2 * y.c3 + x.c3 * y.c2 := rfl

instance : CommRing K4 where
  add_assoc := by intros; apply K4.ext4 <;> simp <;> ring
  zero_add := by intros; apply K4.ext4 <;> simp
  add_zero := by intros; apply K4.ext4 <;> simp
  add_comm := by intros; apply K4.ext4 <;> simp <;> ring
  left_distrib := by intros; apply K4.ext4 <;> simp <;> ring
  right_distrib := by intros; apply K4.ext4 <;> simp <;> ring
  zero_mul := by intros; apply K4.ext4 <;> simp
  mul_zero := by intros; apply K4.ext4 <;> simp
  mul_assoc := by intros; apply K4.ext4 <;> simp <;> ring
  one_mul := by intros; apply K4.ext4 <;> simp
  mul_one := by intros; apply K4.ext4 <;> simp
  neg_add_cancel := by intros; apply K4.ext4 <;> simp
  mul_comm := by intros; apply K4.ext4 <;> simp <;> ring
  nsmul := nsmulRec
  zsmul := zsmulRec

/-- The canonical inclusion of the rationals into `ℚ(√2, √3)`. -/
def ratHomK4 : ℚ →+* K4 where
  toFun r := ⟨r, 0, 0, 0⟩
  map_one' := rfl
  map_mul' := by intros; apply K4.ext4 <;> simp
  map_zero' := rfl
  map_add' := by intros; apply K4.ext4 <;> simp

instance : Algebra ℚ K4 := ratHomK4.toAlgebra

@[simp] theorem K4.algebraMap_eq (r : ℚ) : algebraMap ℚ K4 r = ⟨r, 0, 0, 0⟩ := rfl

@[simp] theorem K4.smul_c1 (r : ℚ) (x : K4) : (r • x).c1 = r * x.c1 := by
  rw [Algebra.smul_def, K4.algebraMap_eq, K4.mul_c1]; simp

@[simp] theorem K4.smul_c2 (r : ℚ) (x : K4) : (r • x).c2 = r * x.c2 := by
  rw [Algebra.smul_def, K4.algebraMap_eq, K4.mul_c2]; simp

@[simp] theorem K4.smul_c3 (r : ℚ) (x : K4) : (r • x).c3 = r * x.c3 := by
  rw [Algebra.smul_def, K4.algebraMap_eq, K4.mul_c3]; simp

@[simp] theorem K4.smul_c6 (r : ℚ) (x : K4) : (r • x).c6 = r * x.c6 := by
  rw [Algebra.smul_def, K4.algebraMap_eq, K4.mul_c6]; simp

/-- `√2` in the model of `ℚ(√2, √3)`. -/
def k4sqrt2 : K4 := ⟨0, 1, 0, 0⟩

/-- `√3` in the model of `ℚ(√2, √3)`. -/
def k4sqrt3 : K4 := ⟨0, 0, 1, 0⟩

/-- `a.vector()` over `ℚ(√2, √3)`. -/
def K4.toVec (x : K4) : Vec 4 := ![x.c1, x.c2, x.c3, x.c6]

/-- An honest executable `minpoly` oracle over `ℚ(√2, √3)`: the first power
of `x` that is a rational combination of the smaller powers yields the
coefficients (Sage computes minimal polynomials the same way, by linear
algebra over the power basis).  The final fallback is unreachable in a
degree-4 algebra; no theorem relies on this oracle beyond the contracts it is
explicitly hypothesised to satisfy. -/
def k4MinpolyCoeffs (x : K4) : List ℚ :=
  let v : ℕ → Vec 4 := fun k => (x ^ k).toVec
  match gaussSolve [v 0] (v 1) with
  | some c => [-c.getD 0 0, 1]
  | none =>
  match gaussSolve [v 0, v 1] (v 2) with
  | some c => [-c.getD 0 0, -c.getD 1 0, 1]
  | none =>
  match gaussSolve [v 0, v 1, v 2] (v 3) with
  | some c => [-c.getD 0 0, -c.getD 1 0, -c.getD 2 0, 1]
  | none =>
  match gaussSolve [v 0, v 1, v 2, v 3] (v 4) with
  | some c => [-c.getD 0 0, -c.getD 1 0, -c.getD 2 0, -c.getD 3 0, 1]
  | none => [0, 1]

/-- The oracle never returns a list of a constant polynomial. -/
theorem k4MinpolyCoeffs_length (x : K4) : 1 ≤ (k4MinpolyCoeffs x).length := by
  unfold k4MinpolyCoeffs
  dsimp only
  split
  · simp
  · split
    · simp
    · split
      · simp
      · split <;> simp

/-- The full capability instance over `ℚ(√2, √3)` (`self.degree() = 4`): the
same executable subspace operations and checked solver as over `ℚ(√2)`, the
linear-algebra `minpoly` oracle, the identity polred, a constant random
stream. -/
def k4Ops : NumberFieldOps K4 4 where
  isRational x := x.c2 == 0 && x.c3 == 0 && x.c6 == 0
  toRat x := x.c1
  toVector := K4.toVec
  ofVector v := ⟨v 0, v 1, v 2, v 3⟩
  subspaceBasis := listSpanBasis
  memSubspace v U := (gaussSolve U v).isSome
  sumSubspace := echelonInsert
  minpolyCoeffs := k4MinpolyCoeffs
  sample _ _ _ := 0
  do_polred p _ := ([0, 1], [0, 1], p)
  solveLeft := checkedSolve

theorem k4Ops_toVector_add (x y : K4) :
    k4Ops.toVector (x + y) = k4Ops.toVector x + k4Ops.toVector y := by
  funext i
  fin_cases i <;> simp [k4Ops, K4.toVec]

theorem k4Ops_toVector_smul (r : ℚ) (x : K4) :
    k4Ops.toVector (r • x) = r • k4Ops.toVector x := by
  funext i
  fin_cases i <;> simp [k4Ops, K4.toVec]

theorem k4Ops_toVector_injective : Function.Injective k4Ops.toVector := by
  intro x y h
  apply K4.ext4
  · exact congrFun h 0
  · exact congrFun h 1
  · exact congrFun h 2
  · exact congrFun h 3

/-! ### Hyperbolic-plane lemmas and claims -/

/-- A `some` answer of `ratSqrt` is an exact square root. -/
theorem ratSqrt_sound (q r : ℚ) (h : ratSqrt q = some r) : r * r = q := by
  unfold ratSqrt at h
  dsimp only at h
  split at h
  · cases h
    assumption
  · exact absurd h (by simp)

/-- Orientation reversal does not change the radius of the geodesic. -/
theorem radiusSquared_neg (g : HGeodesic) : g.neg.radiusSquared = g.radiusSquared := by
  unfold HGeodesic.radiusSquared HGeodesic.neg
  dsimp only
  congr 1 <;> ring

/-- C7: For every HyperbolicPlane H, the point `H.infinity()` is exactly the
point `H.projective(1, 0)`.  (`infinity` is embedded from the source, which
defines it as `self.projective(1, 0)`; `projective` itself is an unimplemented
stub modelled from the spec, over the default rational base ring.) -/
theorem C7_infinity_is_projective_one_zero : infinity = projective 1 0 := rfl

/-- C8: For every convex subset `s` of a hyperbolic plane and every other
convex subset `t` of the same plane, `s.intersection(t)` returns the same set
as the plane-level operation `intersection([s, t])` of their common parent
plane.  (The subset-level method is embedded from the source; the plane-level
operation is an unimplemented stub modelled from the spec as an abstract
capability of the parent plane.) -/
theorem C8_intersection_delegates_to_plane {S : Type} (plane : HyperbolicPlaneOps S)
    (s other : S) : subsetIntersection plane s other = plane.intersection [s, other] :=
  rfl

/-- C9: For every hyperbolic geodesic `g`, `g.end()` equals `(-g).start()`:
the ideal end point is derived from the start point of the
orientation-reversed geodesic, not independently stored.  (`end` is embedded
from the source, which defines it as `return (-self).start()`.) -/
theorem C9_end_is_start_of_negated (g : HGeodesic) : g.endPoint = g.neg.start := rfl

/-- C10: For every hyperbolic geodesic whose defining radius is not a perfect
square in the base ring (`ℚ`) of its hyperbolic plane, calling `start()` or
`end()` signals a well-defined error stating that the ideal endpoint is not
expressible over the base ring, and never returns an approximate value. -/
theorem C10_start_end_error_when_radius_not_square (g : HGeodesic)
    (h : ¬∃ r : ℚ, r * r = g.radiusSquared) :
    g.start = Except.error "ideal endpoint not expressible over base ring" ∧
    g.endPoint = Except.error "ideal endpoint not expressible over base ring" := by
  have hac : g.a + g.c ≠ 0 := by
    intro hz
    apply h
    refine ⟨0, ?_⟩
    unfold HGeodesic.radiusSquared
    rw [hz]
    norm_num
  constructor
  · unfold HGeodesic.start
    rw [if_neg hac]
    rcases hr : ratSqrt g.radiusSquared with _ | r
    · rfl
    · exact absurd ⟨r, ratSqrt_sound _ r hr⟩ h
  · unfold HGeodesic.endPoint HGeodesic.start
    have hac' : g.neg.a + g.neg.c ≠ 0 := by
      unfold HGeodesic.neg
      intro hz
      apply hac
      dsimp only at hz
      linarith
    rw [if_neg hac']
    rcases hr : ratSqrt g.neg.radiusSquared with _ | r
    · rfl
    · have := ratSqrt_sound _ r hr
      rw [radiusSquared_neg] at this
      exact absurd ⟨r, this⟩ h

/-- Witness for C10 at the geodesic with half-plane equation
`x² + y² − 2 = 0` (the half circle of radius `√2` around `0`), whose Klein
coefficients are `(−1/2, 0, 3/2)`: its squared radius is `2`, which has no
rational square root, and `start()` signals the error. -/
theorem C10_witness :
    (¬∃ r : ℚ, r * r = (⟨-1/2, 0, 3/2⟩ : HGeodesic).radiusSquared) ∧
    HGeodesic.start ⟨-1/2, 0, 3/2⟩ =
      Except.error "ideal endpoint not expressible over base ring" := by
  have h2 : (⟨-1/2, 0, 3/2⟩ : HGeodesic).radiusSquared = 2 := by
    unfold HGeodesic.radiusSquared
    norm_num
  have h : ¬∃ r : ℚ, r * r = (⟨-1/2, 0, 3/2⟩ : HGeodesic).radiusSquared := by
    rw [h2]
    rintro ⟨r, hr⟩
    exact rat_sq_ne_two r hr
  exact ⟨h, (C10_start_end_error_when_radius_not_square _ h).1⟩

/-! ### C2: the rational fast path -/

/-- C2: For every ambient field `K` and element list `E`, if every element of
`E` is rational then `subfield_from_elements(K, E)` returns the rational
field itself as the subfield, the elements of `E` coerced to rationals, and
the canonical inclusion of the rationals into `K` as the embedding, without
constructing any new number field (the `.rationals` triple is produced by the
fast path, reaching neither the saturation nor the field construction). -/
theorem C2_rational_fast_path {K : Type} {d : ℕ} [CommRing K] [Algebra ℚ K]
    (ops : NumberFieldOps K d) (alpha : List K) (polred : Bool)
    (threshold : Option ℚ) (satFuel randFuel : ℕ)
    (hall : ∀ a ∈ alpha, ops.isRational a = true) :
    subfield_from_elements ops alpha polred threshold satFuel randFuel =
      .rationals (alpha.map ops.toRat) := by
  unfold subfield_from_elements
  rw [if_pos]
  rw [List.all_eq_true]
  exact hall

/-- Witness for C2 over `ℚ(√2)` with the rational inputs `5` and `−2/3`. -/
theorem C2_witness :
    (∀ a ∈ ([⟨5, 0⟩, ⟨-2/3, 0⟩] : List Q2), q2Ops.isRational a = true) ∧
    subfield_from_elements q2Ops [⟨5, 0⟩, ⟨-2/3, 0⟩] true none 10 10 =
      .rationals [5, -2/3] := by
  have hall : ∀ a ∈ ([⟨5, 0⟩, ⟨-2/3, 0⟩] : List Q2), q2Ops.isRational a = true := by
    decide
  refine ⟨hall, ?_⟩
  rw [C2_rational_fast_path q2Ops _ true none 10 10 hall]
  rfl

/-! ### C4: the generator-discovery phase -/

/-- Unrolling the randomized fallback: with fuel `n`, starting at draw
`attempt` and bound `s`, the result is the first primitive element among the
draws `sample (attempt + k) U (s·2^k)`, `k < n` — the bound doubling after
every failed draw. -/
theorem randomSearch_eq {K : Type} {d : ℕ} (ops : NumberFieldOps K d) (dim : ℕ)
    (U : List (Vec d)) :
    ∀ (fuel attempt : ℕ) (s : ℤ),
      randomSearch ops dim U fuel attempt s =
        ((List.range fuel).map fun k => ops.sample (attempt + k) U (s * 2 ^ k)).find?
          (isPrimitiveVec ops dim) := by
  intro fuel
  induction fuel with
  | zero => intro attempt s; rfl
  | succ n ih =>
    intro attempt s
    rw [List.range_succ_eq_map, List.map_cons, List.map_map]
    have hhead : ops.sample (attempt + 0) U (s * 2 ^ 0) = ops.sample attempt U s := by
      norm_num
    rw [hhead]
    have htail : ((List.range n).map ((fun k => ops.sample (attempt + k) U (s * 2 ^ k)) ∘
        Nat.succ)) = (List.range n).map fun k => ops.sample (attempt + 1 + k) U (2 * s * 2 ^ k) := by
      apply List.map_congr_left
      intro k _
      show ops.sample (attempt + (k + 1)) U (s * 2 ^ (k + 1)) = _
      have h1 : attempt + (k + 1) = attempt + 1 + k := by omega
      have h2 : s * 2 ^ (k + 1) = 2 * s * 2 ^ k := by ring
      rw [h1, h2]
    rw [htail]
    unfold randomSearch
    by_cases hp : isPrimitiveVec ops dim (ops.sample attempt U s) = true
    · rw [if_pos hp, List.find?_cons_of_pos _ hp]
    · rw [if_neg hp, List.find?_cons_of_neg _ (by simpa using hp)]
      exact ih (attempt + 1) (2 * s)

/-- The saturation loop never consults the random stream. -/
theorem withSample_saturateLoop {K : Type} {d : ℕ} [Mul K] (ops : NumberFieldOps K d)
    (s' : ℕ → List (Vec d) → ℤ → Vec d) :
    ∀ (fuel : ℕ) (U : List (Vec d)),
      saturateLoop (ops.withSample s') fuel U = saturateLoop ops fuel U := by
  intro fuel
  induction fuel with
  | zero => intro U; rfl
  | succ n ih =>
    intro U
    unfold saturateLoop
    have hpass : saturatePass (ops.withSample s') U = saturatePass ops U := rfl
    rw [hpass]
    dsimp only
    split
    · rfl
    · split <;> [rw [ih]; rfl]

/-- A generator produced by `chooseGenerator` passes the primitivity test. -/
theorem chooseGenerator_primitive {K : Type} {d : ℕ} (ops : NumberFieldOps K d)
    (dim : ℕ) (U : List (Vec d)) (fuel : ℕ) (vgen : Vec d)
    (h : chooseGenerator ops dim U fuel = some vgen) :
    isPrimitiveVec ops dim vgen = true := by
  unfold chooseGenerator at h
  rcases hf : U.find? (isPrimitiveVec ops dim) with _ | b <;> rw [hf] at h
  · rw [randomSearch_eq] at h
    exact List.find?_some h
  · cases h
    exact List.find?_some hf

/-- C4: In the generator-discovery phase of `subfield_from_elements`, if some
basis vector of the saturated span `U` has a minimal polynomial whose degree
equals the dimension of `U`, then the deterministic basis scan supplies the
generator (the first such vector) and the randomized fallback is never
entered — replacing the random stream changes neither the chosen generator
nor the result of the whole function; only when no basis vector is primitive
does the function sample random elements of `U`, the `k`-th draw with bound
`2^k`, doubling geometrically until a primitive element is found. -/
theorem C4_generator_discovery {K : Type} {d : ℕ} [CommRing K] [Algebra ℚ K]
    (ops : NumberFieldOps K d) (dim satFuel randFuel : ℕ) (U : List (Vec d))
    (alpha : List K) (polred : Bool) (threshold : Option ℚ) :
    (∀ b, U.find? (isPrimitiveVec ops dim) = some b →
      chooseGenerator ops dim U randFuel = some b ∧
      ∀ s', chooseGenerator (ops.withSample s') dim U randFuel = some b) ∧
    (U.find? (isPrimitiveVec ops dim) = none →
      chooseGenerator ops dim U randFuel =
        ((List.range randFuel).map fun k => ops.sample k U (2 ^ k)).find?
          (isPrimitiveVec ops dim)) ∧
    (∀ s', saturateLoop ops satFuel (ops.subspaceBasis (alpha.map ops.toVector)) =
          .finished U dim →
      (U.find? (isPrimitiveVec ops dim)).isSome = true →
      subfield_from_elements (ops.withSample s') alpha polred threshold satFuel randFuel =
        subfield_from_elements ops alpha polred threshold satFuel randFuel) := by
  refine ⟨?_, ?_, ?_⟩
  · intro b hb
    constructor
    · unfold chooseGenerator
      rw [hb]
    · intro s'
      unfold chooseGenerator
      have hb' : U.find? (isPrimitiveVec (ops.withSample s') dim) = some b := hb
      rw [hb']
  · intro hnone
    unfold chooseGenerator
    rw [hnone, randomSearch_eq]
    have h1 : ∀ k, (0 : ℕ) + k = k := fun k => by omega
    apply congrArg (List.find? (isPrimitiveVec ops dim))
    apply List.map_congr_left
    intro k _
    rw [h1 k, one_mul]
  · intro s' hsat hsome
    obtain ⟨b, hb⟩ := Option.isSome_iff_exists.mp hsome
    have hsat' : saturateLoop (ops.withSample s') satFuel
        ((ops.withSample s').subspaceBasis (alpha.map (ops.withSample s').toVector)) =
        .finished U dim := by
      rw [withSample_saturateLoop]
      exact hsat
    have hgen : chooseGenerator ops dim U randFuel = some b := by
      unfold chooseGenerator
      rw [hb]
    have hgen' : chooseGenerator (ops.withSample s') dim U randFuel = some b := by
      unfold chooseGenerator
      have hb' : U.find? (isPrimitiveVec (ops.withSample s') dim) = some b := hb
      rw [hb']
    unfold subfield_from_elements
    by_cases hall : alpha.all (fun a => ops.isRational a) = true
    · have hall' : alpha.all (fun a => (ops.withSample s').isRational a) = true := hall
      rw [if_pos hall', if_pos hall]
      rfl
    · have hall' : ¬alpha.all (fun a => (ops.withSample s').isRational a) = true := hall
      rw [if_neg hall', if_neg hall]
      dsimp only
      rw [hsat', hsat]
      dsimp only
      rw [hgen', hgen]
      rfl

/-! ### Dissecting a run that constructs a subfield -/

/-- The dimension delivered by a finishing saturation is the length of the
delivered basis (`U.dimension()` read at the start of the unmodified pass). -/
theorem saturateLoop_finished_length {K : Type} {d : ℕ} [Mul K] (ops : NumberFieldOps K d) :
    ∀ (fuel : ℕ) (U₀ U : List (Vec d)) (dim : ℕ),
      saturateLoop ops fuel U₀ = .finished U dim → dim = U.length := by
  intro fuel
  induction fuel with
  | zero =>
    intro U₀ U dim h
    exact absurd h (by simp [saturateLoop])
  | succ n ih =>
    intro U₀ U dim h
    unfold saturateLoop at h
    dsimp only at h
    split at h
    · exact absurd h (by simp)
    · split at h
      · exact ih _ _ _ h
      · cases h
        rfl

/-- If a run of `subfield_from_elements` returns a constructed subfield, the
run passed, in order: the rationality test (negatively), a finishing
saturation, a successful generator search, the polred step, the passing
`assert`, and a successful `solve_left` on every element. -/
theorem subfield_run_inversion {K : Type} {d : ℕ} [CommRing K] [Algebra ℚ K]
    (ops : NumberFieldOps K d) (alpha : List K) (polred : Bool) (threshold : Option ℚ)
    (satFuel randFuel : ℕ) (q : List ℚ) (gen : K) (elts : List (List ℚ))
    (hres : subfield_from_elements ops alpha polred threshold satFuel randFuel =
      .subfield q gen elts) :
    ∃ (U : List (Vec d)) (dim : ℕ) (vgen : Vec d),
      saturateLoop ops satFuel (ops.subspaceBasis (alpha.map ops.toVector)) =
        .finished U dim ∧
      chooseGenerator ops dim U randFuel = some vgen ∧
      gen = evalPoly (polredStep ops polred threshold
        (ops.minpolyCoeffs (ops.ofVector vgen))).1 (ops.ofVector vgen) ∧
      q = (polredStep ops polred threshold
        (ops.minpolyCoeffs (ops.ofVector vgen))).2.2 ∧
      ops.minpolyCoeffs gen = q ∧
      optionMap (fun elt => ops.solveLeft ((List.range dim).map fun i =>
        ops.toVector (gen ^ i)) (ops.toVector elt)) alpha = some elts := by
  unfold subfield_from_elements at hres
  by_cases hall : alpha.all (fun a => ops.isRational a) = true
  · rw [if_pos hall] at hres
    exact absurd hres (by simp)
  · rw [if_neg hall] at hres
    dsimp only at hres
    rcases hsat : saturateLoop ops satFuel (ops.subspaceBasis (alpha.map ops.toVector))
      with _ | ⟨U, dim⟩ | _ <;> rw [hsat] at hres
    · exact absurd hres (by simp)
    · dsimp only at hres
      rcases hgen : chooseGenerator ops dim U randFuel with _ | vgen <;> rw [hgen] at hres
      · exact absurd hres (by simp)
      · dsimp only at hres
        refine ⟨U, dim, vgen, rfl, hgen, ?_⟩
        split at hres
        · exact absurd hres (by simp)
        · rename_i hassert
          split at hres
          · rename_i heq
            exact absurd hres (by simp)
          · rename_i coords heq
            rw [SubfieldResult.subfield.injEq] at hres
            obtain ⟨hq, hgen', helts⟩ := hres
            subst hq
            subst hgen'
            subst helts
            exact ⟨rfl, rfl, not_ne_iff.mp hassert, heq⟩
    · exact absurd hres (by simp)

/-! ### C5: the polred flag -/

/-- C5: When the polred flag is true the generator's minimal polynomial `p`
is passed to the polynomial-reduction routine, with the caller's threshold
forwarded verbatim whenever a threshold is provided (a positive number, per
the function's contract — the code's Python truthiness test `if threshold:`
makes a zero threshold behave like an absent one); when the polred flag is
false no reduction is applied: `fwd` and `back` are the identity polynomial
`x` (the coefficient list `[0, 1]`, so `new_gen = fwd(gen) = gen`), and a run
that returns a constructed subfield returns one built from the raw generator
`self(vgen)` delivered by the generator search, whose minimal polynomial is
used unchanged as the defining polynomial. -/
theorem C5_polred_flag {K : Type} {d : ℕ} [CommRing K] [Algebra ℚ K]
    (ops : NumberFieldOps K d) (p : List ℚ) (t : ℚ) (threshold : Option ℚ) (x : K)
    (alpha : List K) (satFuel randFuel : ℕ) (U : List (Vec d)) (dim : ℕ) (vgen : Vec d)
    (q : List ℚ) (gen : K) (elts : List (List ℚ)) :
    (0 < t → polredStep ops true (some t) p = ops.do_polred p (some t)) ∧
    polredStep ops true none p = ops.do_polred p none ∧
    polredStep ops false threshold p = ([0, 1], [0, 1], p) ∧
    evalPoly [0, 1] x = x ∧
    (saturateLoop ops satFuel (ops.subspaceBasis (alpha.map ops.toVector)) =
        .finished U dim →
      chooseGenerator ops dim U randFuel = some vgen →
      subfield_from_elements ops alpha false threshold satFuel randFuel =
        .subfield q gen elts →
      gen = ops.ofVector vgen ∧ q = ops.minpolyCoeffs gen) := by
  refine ⟨?_, rfl, rfl, evalPoly_X_list x, ?_⟩
  · intro ht
    unfold polredStep
    rw [if_pos rfl]
    dsimp only
    rw [if_neg (by exact ne_of_gt ht)]
  · intro hsat hgen hres
    obtain ⟨U', dim', vgen', hsat', hgen', hg, hq, hmq, hsol⟩ :=
      subfield_run_inversion ops alpha false threshold satFuel randFuel q gen elts hres
    rw [hsat] at hsat'
    obtain ⟨hU, hdim⟩ : U = U' ∧ dim = dim' := by
      rw [SatOutcome.finished.injEq] at hsat'
      exact hsat'
    subst hU
    subst hdim
    rw [hgen] at hgen'
    cases hgen'
    have hps : polredStep ops false threshold (ops.minpolyCoeffs (ops.ofVector vgen)) =
        ([0, 1], [0, 1], ops.minpolyCoeffs (ops.ofVector vgen)) := rfl
    rw [hps] at hg hq
    dsimp only at hg hq
    rw [evalPoly_X_list] at hg
    exact ⟨hg, by rw [hq, hg]⟩

/-! ### C3: the saturation dimension determines the degree -/

/-- C3: For every ambient field and element list with at least one irrational
element, the degree of the subfield returned by `subfield_from_elements`
equals the dimension of the fixed point of the closure-under-pairwise-
multiplication (saturation) procedure applied to the rational span of the
coordinate vectors of the elements: a returned triple `.subfield q gen elts`
has `q` of length `dim + 1` (degree `dim`), where the saturation loop
finished at `.finished U dim` with `dim = U.length` the dimension of the
saturated span.  In particular, if the fixed-point dimension reaches the
ambient degree the ambient field itself is returned, with the original
elements and the identity embedding (the `.ambient alpha` triple); and every
element of `E` is exactly expressible in the returned field's power basis:
evaluating the `i`-th returned coordinate list at the generator reproduces
the `i`-th input element.

Hypotheses: the `minpoly` capability returns at least one coefficient, the
polred capability preserves the degree of the defining polynomial (as PARI's
`polredbest` does), `solve_left` solutions solve their system, and
`a.vector()` is injective and `ℚ`-linear. -/
theorem C3_saturation_fixpoint_degree {K : Type} {d : ℕ} [CommRing K] [Algebra ℚ K]
    (ops : NumberFieldOps K d) (alpha : List K) (polred : Bool) (threshold : Option ℚ)
    (satFuel randFuel : ℕ)
    (hminlen : ∀ x : K, 1 ≤ (ops.minpolyCoeffs x).length)
    (hpol : ∀ (p : List ℚ) (t : Option ℚ), ((ops.do_polred p t).2.2).length = p.length)
    (hsolve : ∀ rows target c, ops.solveLeft rows target = some c →
      c.length = rows.length ∧ lincomb c rows = target)
    (hadd : ∀ x y, ops.toVector (x + y) = ops.toVector x + ops.toVector y)
    (hsmul : ∀ (r : ℚ) (x : K), ops.toVector (r • x) = r • ops.toVector x)
    (hinj : Function.Injective ops.toVector)
    (hirr : ¬(alpha.all fun a => ops.isRational a) = true) :
    (saturateLoop ops satFuel (ops.subspaceBasis (alpha.map ops.toVector)) = .fullDegree →
      subfield_from_elements ops alpha polred threshold satFuel randFuel = .ambient alpha) ∧
    (∀ q gen elts, subfield_from_elements ops alpha polred threshold satFuel randFuel =
        .subfield q gen elts →
      (∃ U dim, saturateLoop ops satFuel (ops.subspaceBasis (alpha.map ops.toVector)) =
          .finished U dim ∧ dim = U.length ∧ q.length = dim + 1) ∧
      List.Forall₂ (fun c a => evalPoly c gen = a) elts alpha) := by
  constructor
  · intro hfull
    unfold subfield_from_elements
    rw [if_neg hirr]
    dsimp only
    rw [hfull]
  · intro q gen elts hres
    obtain ⟨U, dim, vgen, hsat, hgen, hg, hq, hmq, hsol⟩ :=
      subfield_run_inversion ops alpha polred threshold satFuel randFuel q gen elts hres
    have hdim : dim = U.length := saturateLoop_finished_length ops _ _ _ _ hsat
    have hprim : isPrimitiveVec ops dim vgen = true :=
      chooseGenerator_primitive ops dim U randFuel vgen hgen
    have hplen : (ops.minpolyCoeffs (ops.ofVector vgen)).length = dim + 1 := by
      unfold isPrimitiveVec at hprim
      simp only [beq_iff_eq] at hprim
      have h1 := hminlen (ops.ofVector vgen)
      omega
    have hqlen : q.length = dim + 1 := by
      rw [hq]
      unfold polredStep
      by_cases hp : polred = true
      · rw [if_pos hp]
        rcases threshold with _ | t
        · rw [hpol, hplen]
        · dsimp only
          by_cases ht : t = 0
          · rw [if_pos ht, hpol, hplen]
          · rw [if_neg ht, hpol, hplen]
      · rw [if_neg hp]
        exact hplen
    refine ⟨⟨U, dim, hsat, hdim, hqlen⟩, ?_⟩
    have hall := optionMap_forall₂ _ alpha elts hsol
    refine List.Forall₂.flip (List.Forall₂.imp ?_ hall)
    intro a c hsolved
    obtain ⟨hlen, hcomb⟩ := hsolve _ _ _ hsolved
    rw [List.length_map, List.length_range] at hlen
    have hrows : (List.range dim).map (fun i => ops.toVector (gen ^ i)) =
        ((List.range dim).map fun i => gen ^ i).map ops.toVector := by
      rw [List.map_map]
      rfl
    rw [hrows, lincomb_map ops.toVector hadd hsmul] at hcomb
    have := hinj hcomb
    rw [← hlen] at this
    rw [elemComb_powers] at this
    exact this

/-- A `.rationals` result comes from the fast path: every input passed the
rationality test and the returned elements are the coerced inputs. -/
theorem rationals_run_inversion {K : Type} {d : ℕ} [CommRing K] [Algebra ℚ K]
    (ops : NumberFieldOps K d) (alpha : List K) (polred : Bool) (threshold : Option ℚ)
    (satFuel randFuel : ℕ) (elts : List ℚ)
    (hres : subfield_from_elements ops alpha polred threshold satFuel randFuel =
      .rationals elts) :
    (alpha.all fun a => ops.isRational a) = true ∧ elts = alpha.map ops.toRat := by
  unfold subfield_from_elements at hres
  by_cases hall : (alpha.all fun a => ops.isRational a) = true
  · rw [if_pos hall] at hres
    rw [SubfieldResult.rationals.injEq] at hres
    exact ⟨hall, hres.symm⟩
  · rw [if_neg hall] at hres
    dsimp only at hres
    exfalso
    split at hres
    · exact absurd hres (by simp)
    · exact absurd hres (by simp)
    · split at hres
      · exact absurd hres (by simp)
      · split at hres
        · exact absurd hres (by simp)
        · split at hres
          · exact absurd hres (by simp)
          · exact absurd hres (by simp)

/-- An `.ambient` result returns the original elements unchanged. -/
theorem ambient_run_inversion {K : Type} {d : ℕ} [CommRing K] [Algebra ℚ K]
    (ops : NumberFieldOps K d) (alpha : List K) (polred : Bool) (threshold : Option ℚ)
    (satFuel randFuel : ℕ) (elts : List K)
    (hres : subfield_from_elements ops alpha polred threshold satFuel randFuel =
      .ambient elts) :
    elts = alpha := by
  unfold subfield_from_elements at hres
  by_cases hall : (alpha.all fun a => ops.isRational a) = true
  · rw [if_pos hall] at hres
    exact absurd hres (by simp)
  · rw [if_neg hall] at hres
    dsimp only at hres
    rcases hsat : saturateLoop ops satFuel (ops.subspaceBasis (alpha.map ops.toVector))
      with _ | ⟨U, dim⟩ | _ <;> rw [hsat] at hres
    · rw [SubfieldResult.ambient.injEq] at hres
      exact hres.symm
    · dsimp only at hres
      exfalso
      split at hres
      · exact absurd hres (by simp)
      · split at hres
        · exact absurd hres (by simp)
        · split at hres
          · exact absurd hres (by simp)
          · exact absurd hres (by simp)
    · exact absurd hres (by simp)

/-! ### C1: the postconditions of `subfield_from_elements` -/

/-- C1: For every ambient number field `K` and every finite list `E` of
elements of `K`, if `subfield_from_elements(K, E)` returns `(L, E', φ)`, then
`φ` is an injective field embedding of `L` into `K`, `φ(E'[i])` equals
`E[i]` exactly for every index `i`, and the degree of `L` divides the degree
of `K` (stated by `SubfieldResultSound`, which spells the postcondition out
for each of the three returned triples; a raising path returns no triple).

Hypotheses are the contracts of the capabilities the proof consumes: the
`minpoly` oracle returns the coefficient list of the minimal polynomial,
`solve_left` solutions solve their system with one coordinate per row,
`a.vector()` is injective and `ℚ`-linear, and elements passing
`is_rational()` are in the image of the rationals. -/
theorem C1_subfield_postconditions {K : Type} {d : ℕ} [Field K] [Algebra ℚ K]
    [FiniteDimensional ℚ K] (ops : NumberFieldOps K d) (alpha : List K) (polred : Bool)
    (threshold : Option ℚ) (satFuel randFuel : ℕ)
    (hmin : ∀ x : K, ops.minpolyCoeffs x = polyToList (minpoly ℚ x))
    (hsolve : ∀ rows target c, ops.solveLeft rows target = some c →
      c.length = rows.length ∧ lincomb c rows = target)
    (hadd : ∀ x y, ops.toVector (x + y) = ops.toVector x + ops.toVector y)
    (hsmul : ∀ (r : ℚ) (x : K), ops.toVector (r • x) = r • ops.toVector x)
    (hinj : Function.Injective ops.toVector)
    (hrat : ∀ x, ops.isRational x = true → algebraMap ℚ K (ops.toRat x) = x) :
    SubfieldResultSound alpha
      (subfield_from_elements ops alpha polred threshold satFuel randFuel) := by
  rcases hres : subfield_from_elements ops alpha polred threshold satFuel randFuel
    with elts | elts | ⟨q, gen, elts⟩ | msg
  · obtain ⟨hall, helts⟩ :=
      rationals_run_inversion ops alpha polred threshold satFuel randFuel elts hres
    subst helts
    dsimp only [SubfieldResultSound]
    refine ⟨RingHom.injective _, ?_, one_dvd _⟩
    rw [List.all_eq_true] at hall
    rw [List.forall₂_map_left_iff, List.forall₂_same]
    intro x hx
    exact hrat x (hall x hx)
  · have helts := ambient_run_inversion ops alpha polred threshold satFuel randFuel elts hres
    dsimp only [SubfieldResultSound]
    exact ⟨fun a b h => h, helts, dvd_refl _⟩
  · obtain ⟨U, dim, vgen, hsat, hgen, hg, hq, hmq, hsol⟩ :=
      subfield_run_inversion ops alpha polred threshold satFuel randFuel q gen elts hres
    have hqp : listToPoly q = minpoly ℚ gen := by
      rw [← hmq, hmin gen, listToPoly_polyToList]
    have hint : IsIntegral ℚ gen := IsIntegral.of_finite ℚ gen
    have hirr : Irreducible (listToPoly q) := by
      rw [hqp]
      exact minpoly.irreducible hint
    dsimp only [SubfieldResultSound]
    refine ⟨hirr, ?_⟩
    haveI : Fact (Irreducible (listToPoly q)) := ⟨hirr⟩
    have hroot : Polynomial.eval₂ (algebraMap ℚ K) gen (listToPoly q) = 0 := by
      have h := minpoly.aeval ℚ gen
      rw [Polynomial.aeval_def] at h
      rw [hqp]
      exact h
    refine ⟨AdjoinRoot.lift (algebraMap ℚ K) gen hroot, RingHom.injective _, ?_, ?_, ?_⟩
    · intro y
      rw [AdjoinRoot.lift_mk, ← Polynomial.aeval_def]
    · have hall := optionMap_forall₂ _ alpha elts hsol
      refine List.Forall₂.flip (List.Forall₂.imp ?_ hall)
      intro a c hsolved
      obtain ⟨hlen, hcomb⟩ := hsolve _ _ _ hsolved
      rw [List.length_map, List.length_range] at hlen
      have hrows : (List.range dim).map (fun i => ops.toVector (gen ^ i)) =
          ((List.range dim).map fun i => gen ^ i).map ops.toVector := by
        rw [List.map_map]
        rfl
      rw [hrows, lincomb_map ops.toVector hadd hsmul] at hcomb
      have hsum := hinj hcomb
      rw [← hlen, elemComb_powers] at hsum
      show AdjoinRoot.lift (algebraMap ℚ K) gen hroot (AdjoinRoot.mk _ (listToPoly c)) = a
      rw [AdjoinRoot.lift_mk, ← Polynomial.aeval_def, ← evalPoly_eq_aeval]
      exact hsum
    · rw [hqp]
      exact minpoly.degree_dvd hint
  · exact trivial

/-! ### C6: the linear systems of the re-expression step are always solvable -/

theorem elemComb_ofFn {K : Type} [CommRing K] [Algebra ℚ K] (g : K) :
    ∀ (n : ℕ) (c : Fin n → ℚ),
      elemComb (List.ofFn c) ((List.range n).map fun i => g ^ i) =
        ∑ i, c i • g ^ (i : ℕ) := by
  intro n
  induction n with
  | zero => intro c; simp [elemComb]
  | succ m ih =>
    intro c
    rw [List.ofFn_succ, List.range_succ_eq_map, List.map_cons, List.map_map]
    have hmap : (List.range m).map ((fun i => g ^ i) ∘ Nat.succ) =
        ((List.range m).map fun i => g ^ i).map fun y => g * y := by
      rw [List.map_map]
      apply List.map_congr_left
      intro i _
      simp [Function.comp, pow_succ, mul_comm]
    rw [hmap]
    show c 0 • g ^ 0 + elemComb (List.ofFn fun i => c i.succ) _ = _
    rw [elemComb_mul_left, ih fun i => c i.succ, Fin.sum_univ_succ]
    rw [Finset.mul_sum]
    congr 1
    apply Finset.sum_congr rfl
    intro i _
    rw [mul_smul_comm, Fin.val_succ, pow_succ, mul_comm (g ^ (i : ℕ)) g]

/-- C6: In `subfield_from_elements`, under the precondition that saturation
was performed correctly — the (ordered) basis `us` of the saturated subspace
is closed under pairwise products, contains the input elements `alpha` in its
span, at least one input is irrational, and the generator `g = fwd(g₀)` was
built from an element `g₀` of the span whose image has minimal polynomial of
degree equal to the dimension `dim = us.length` of the span — the linear
system solved for each input element (the matrix of the new generator's
powers against the element's coordinate vector) always has a solution: every
`a` in `alpha` is `∑ i < dim, cᵢ·gⁱ` for some rational coordinates, and hence
any `solve_left` that succeeds on solvable systems returns a solution, so the
solve never fails; a failure there is an invariant violation (the `.failure`
path of the model), not a declared error path. -/
theorem C6_reexpression_systems_solvable {K : Type} [Field K] [Algebra ℚ K]
    [FiniteDimensional ℚ K] (us alpha : List K) (g₀ g : K) (fwd : List ℚ) (dim : ℕ)
    (hdim : dim = us.length)
    (hclosed : ∀ x ∈ us, ∀ y ∈ us, x * y ∈ Submodule.span ℚ {z : K | z ∈ us})
    (halpha : ∀ a ∈ alpha, a ∈ Submodule.span ℚ {z : K | z ∈ us})
    (hirr : ∃ a ∈ alpha, a ∉ Set.range (algebraMap ℚ K))
    (hg₀ : g₀ ∈ Submodule.span ℚ {z : K | z ∈ us})
    (hg : g = evalPoly fwd g₀)
    (hdeg : (minpoly ℚ g).natDegree = dim) :
    (∀ a ∈ alpha, ∃ c : Fin dim → ℚ, ∑ i, c i • g ^ (i : ℕ) = a) ∧
    ∀ (tv : K → Vec dim), (∀ x y, tv (x + y) = tv x + tv y) →
      (∀ (r : ℚ) (x : K), tv (r • x) = r • tv x) →
      ∀ sl : List (Vec dim) → Vec dim → Option (List ℚ),
        (∀ rows target, (∃ c : List ℚ, c.length = rows.length ∧ lincomb c rows = target) →
          (sl rows target).isSome = true) →
        ∀ a ∈ alpha,
          (sl ((List.range dim).map fun i => tv (g ^ i)) (tv a)).isSome = true := by
  set W := Submodule.span ℚ {z : K | z ∈ us} with hW
  have hWmul : ∀ x ∈ W, ∀ y ∈ W, x * y ∈ W := by
    intro x hx y hy
    have h1 : W * W ≤ W := by
      rw [hW, Submodule.span_mul_span]
      apply Submodule.span_le.mpr
      rintro z ⟨s, hs, t, ht, rfl⟩
      exact hclosed s hs t ht
    exact h1 (Submodule.mul_mem_mul hx hy)
  obtain ⟨a₀, ha₀mem, ha₀irr⟩ := hirr
  have ha₀W : a₀ ∈ W := halpha a₀ ha₀mem
  have ha₀ne : a₀ ≠ 0 := by
    rintro rfl
    exact ha₀irr ⟨0, map_zero _⟩
  have hpow : ∀ x : K, x ∈ W → ∀ n : ℕ, 1 ≤ n → x ^ n ∈ W := by
    intro x hx n hn
    induction n with
    | zero => omega
    | succ m ih =>
      by_cases hm : m = 0
      · subst hm
        simpa using hx
      · rw [pow_succ]
        exact hWmul _ (ih (by omega)) _ hx
  have hone : (1 : K) ∈ W := by
    have hint : IsIntegral ℚ a₀ := IsIntegral.of_finite ℚ a₀
    have hc0 : (minpoly ℚ a₀).coeff 0 ≠ 0 := minpoly.coeff_zero_ne_zero hint ha₀ne
    have haev : Polynomial.aeval a₀ (minpoly ℚ a₀) = 0 := minpoly.aeval ℚ a₀
    rw [Polynomial.aeval_eq_sum_range, Finset.sum_range_succ', pow_zero] at haev
    have hS : (∑ i ∈ Finset.range (minpoly ℚ a₀).natDegree,
        (minpoly ℚ a₀).coeff (i + 1) • a₀ ^ (i + 1)) ∈ W := by
      apply Submodule.sum_mem
      intro i _
      exact Submodule.smul_mem _ _ (hpow a₀ ha₀W (i + 1) (by omega))
    have hneg : (minpoly ℚ a₀).coeff 0 • (1 : K) =
        -(∑ i ∈ Finset.range (minpoly ℚ a₀).natDegree,
          (minpoly ℚ a₀).coeff (i + 1) • a₀ ^ (i + 1)) := by
      rw [eq_neg_iff_add_eq_zero, add_comm]
      exact haev
    have h1 : (1 : K) = ((minpoly ℚ a₀).coeff 0)⁻¹ • ((minpoly ℚ a₀).coeff 0 • (1 : K)) := by
      rw [smul_smul, inv_mul_cancel₀ hc0, one_smul]
    rw [h1, hneg]
    exact Submodule.smul_mem _ _ (Submodule.neg_mem _ hS)
  have hgW : g ∈ W := by
    rw [hg]
    clear hg hdeg
    induction fwd with
    | nil => exact Submodule.zero_mem W
    | cons b bs ih =>
      show algebraMap ℚ K b + g₀ * evalPoly bs g₀ ∈ W
      refine Submodule.add_mem _ ?_ (hWmul g₀ hg₀ _ ih)
      rw [Algebra.algebraMap_eq_smul_one]
      exact Submodule.smul_mem _ _ hone
  have hgpow : ∀ n : ℕ, g ^ n ∈ W := by
    intro n
    cases n with
    | zero =>
      rw [pow_zero]
      exact hone
    | succ m => exact hpow g hgW (m + 1) (by omega)
  have hli : LinearIndependent ℚ fun i : Fin dim => g ^ (i : ℕ) := by
    have h := linearIndependent_pow (K := ℚ) g
    rw [hdeg] at h
    exact h
  set P := Submodule.span ℚ (Set.range fun i : Fin dim => g ^ (i : ℕ)) with hP
  have hPle : P ≤ W := by
    rw [hP]
    apply Submodule.span_le.mpr
    rintro z ⟨i, rfl⟩
    exact hgpow i
  have hPrank : Module.finrank ℚ P = dim := by
    rw [hP, finrank_span_eq_card hli, Fintype.card_fin]
  have hset : {z : K | z ∈ us} = Set.range fun i : Fin us.length => us.get i := by
    ext z
    simp [List.mem_iff_get, Set.range, eq_comm]
  have hWrank : Module.finrank ℚ W ≤ dim := by
    have h := finrank_range_le_card (R := ℚ) fun i : Fin us.length => us.get i
    unfold Set.finrank at h
    rw [← hset] at h
    rw [hW, hdim]
    simpa using h
  have hfd : FiniteDimensional ℚ W := by
    apply FiniteDimensional.span_of_finite
    exact List.finite_toSet us
  have hPW : P = W := by
    apply Submodule.eq_of_le_of_finrank_le hPle
    rw [hPrank]
    exact hWrank
  have hmain : ∀ a ∈ alpha, ∃ c : Fin dim → ℚ, ∑ i, c i • g ^ (i : ℕ) = a := by
    intro a ha
    have haW : a ∈ W := halpha a ha
    rw [← hPW, hP] at haW
    exact (mem_span_range_iff_exists_fun ℚ).mp haW
  refine ⟨hmain, ?_⟩
  intro tv hadd hsmul sl hcomplete a ha
  obtain ⟨c, hc⟩ := hmain a ha
  apply hcomplete
  refine ⟨List.ofFn c, by simp, ?_⟩
  have hrows : (List.range dim).map (fun i => tv (g ^ i)) =
      ((List.range dim).map fun i => g ^ i).map tv := by
    rw [List.map_map]
    rfl
  rw [hrows, lincomb_map tv hadd hsmul, elemComb_ofFn, hc]

/-! ### Concrete witnesses

The evaluations below unfold rational arithmetic, which `Batteries` marks
irreducible; locally restore reducibility so `decide` can run the embedded
algorithm on the concrete fields. -/

attribute [local semireducible] Rat.add Rat.mul Rat.inv Rat.sub Rat.ofScientific

theorem C4_witness :
    (chooseGenerator k4Ops 2 [![0,1,0,0], ![2,0,0,0]] 3 = some ![0,1,0,0] ∧
      chooseGenerator (k4Ops.withSample fun _ _ _ => ![1,1,1,1]) 2
        [![0,1,0,0], ![2,0,0,0]] 3 = some ![0,1,0,0]) ∧
    chooseGenerator k4Ops 2 [![1,0,0,0]] 3 =
      ((List.range 3).map fun k => k4Ops.sample k [![1,0,0,0]] (2 ^ k)).find?
        (isPrimitiveVec k4Ops 2) ∧
    subfield_from_elements (k4Ops.withSample fun _ _ _ => ![1,1,1,1]) [k4sqrt2]
        false none 10 10 =
      subfield_from_elements k4Ops [k4sqrt2] false none 10 10 := by
  have h1 := (C4_generator_discovery k4Ops 2 10 3 [![0,1,0,0], ![2,0,0,0]] [k4sqrt2]
    false none).1 ![0,1,0,0] (by decide)
  have h2 := (C4_generator_discovery k4Ops 2 10 3 [![1,0,0,0]] [k4sqrt2]
    false none).2.1 (by decide)
  have h3 := (C4_generator_discovery k4Ops 2 10 10 [![0,1,0,0], ![2,0,0,0]] [k4sqrt2]
    false none).2.2 (fun _ _ _ => ![1,1,1,1]) (by decide) (by decide)
  exact ⟨⟨h1.1, h1.2 _⟩, h2, h3⟩

theorem C5_witness :
    polredStep k4Ops true (some 1) [0, 1] = k4Ops.do_polred [0, 1] (some 1) ∧
    (k4sqrt2 = k4Ops.ofVector ![0,1,0,0] ∧
      ([-2, 0, 1] : List ℚ) = k4Ops.minpolyCoeffs k4sqrt2) := by
  have h := C5_polred_flag k4Ops [0, 1] 1 none k4sqrt2 [k4sqrt2] 10 10
    [![0,1,0,0], ![2,0,0,0]] 2 ![0,1,0,0] [-2, 0, 1] k4sqrt2 [[0, 1]]
  exact ⟨h.1 one_pos, h.2.2.2.2 (by decide) (by decide) (by decide)⟩

theorem C3_witness :
    subfield_from_elements k4Ops [k4sqrt2, k4sqrt3] false none 10 10 =
      .ambient [k4sqrt2, k4sqrt3] ∧
    ((∃ U dim, saturateLoop k4Ops 10 (k4Ops.subspaceBasis ([k4sqrt2].map k4Ops.toVector)) =
        .finished U dim ∧ dim = U.length ∧ ([-2, 0, 1] : List ℚ).length = dim + 1) ∧
      List.Forall₂ (fun c a => evalPoly c k4sqrt2 = a) [[0, 1]] [k4sqrt2]) := by
  have hfull := (C3_saturation_fixpoint_degree k4Ops [k4sqrt2, k4sqrt3] false none 10 10
    (fun x => k4MinpolyCoeffs_length x) (fun p t => rfl)
    (fun rows target c h => checkedSolve_sound rows target c h)
    k4Ops_toVector_add k4Ops_toVector_smul k4Ops_toVector_injective
    (by decide)).1 (by decide)
  have hsub := (C3_saturation_fixpoint_degree k4Ops [k4sqrt2] false none 10 10
    (fun x => k4MinpolyCoeffs_length x) (fun p t => rfl)
    (fun rows target c h => checkedSolve_sound rows target c h)
    k4Ops_toVector_add k4Ops_toVector_smul k4Ops_toVector_injective
    (by decide)).2 [-2, 0, 1] k4sqrt2 [[0, 1]] (by decide)
  exact ⟨hfull, hsub⟩

theorem C1_witness :
    SubfieldResultSound [sqrt2] (subfield_from_elements q2Ops [sqrt2] false none 4 4) :=
  C1_subfield_postconditions q2Ops [sqrt2] false none 4 4
    (fun x => q2MinpolyCoeffs_lawful x)
    (fun rows target c h => checkedSolve_sound rows target c h)
    q2Ops_toVector_add q2Ops_toVector_smul q2Ops_toVector_injective
    q2Ops_isRational_sound

theorem C6_witness :
    (∃ c : Fin 2 → ℚ, ∑ i, c i • sqrt2 ^ (i : ℕ) = sqrt2) ∧
    ((fun _ _ => some ([] : List ℚ) : List (Vec 2) → Vec 2 → Option (List ℚ))
        ((List.range 2).map fun i => q2Ops.toVector (sqrt2 ^ i))
        (q2Ops.toVector sqrt2)).isSome = true := by
  have hclosed : ∀ x ∈ [sqrt2, (1 : Q2)], ∀ y ∈ [sqrt2, (1 : Q2)],
      x * y ∈ Submodule.span ℚ {z : Q2 | z ∈ [sqrt2, (1 : Q2)]} := by
    have h1 : (1 : Q2) ∈ Submodule.span ℚ {z : Q2 | z ∈ [sqrt2, (1 : Q2)]} :=
      Submodule.subset_span (by simp)
    have hs : sqrt2 ∈ Submodule.span ℚ {z : Q2 | z ∈ [sqrt2, (1 : Q2)]} :=
      Submodule.subset_span (by simp)
    have h2 : sqrt2 * sqrt2 = (2 : ℚ) • (1 : Q2) := by decide
    intro x hx y hy
    simp only [List.mem_cons, List.not_mem_nil, or_false] at hx hy
    rcases hx with rfl | rfl <;> rcases hy with rfl | rfl
    · rw [h2]
      exact Submodule.smul_mem _ _ h1
    · rw [mul_one]
      exact hs
    · rw [one_mul]
      exact hs
    · rw [mul_one]
      exact h1
  have hirr : ∃ a ∈ [sqrt2], a ∉ Set.range (algebraMap ℚ Q2) := by
    refine ⟨sqrt2, by simp, ?_⟩
    rintro ⟨r, hr⟩
    have : sqrt2.im = 0 := (q2_mem_range_iff sqrt2).mp ⟨r, hr⟩
    exact absurd this (by decide)
  have hdeg : (minpoly ℚ sqrt2).natDegree = 2 := by
    have h := q2_minpoly_irrational 0 1 one_ne_zero
    show (minpoly ℚ (⟨0, 1⟩ : Q2)).natDegree = 2
    rw [h, quad_natDegree]
  have h := C6_reexpression_systems_solvable [sqrt2, (1 : Q2)] [sqrt2] sqrt2 sqrt2
    [0, 1] 2 (by decide) hclosed
    (fun a ha => Submodule.subset_span (by simp only [List.mem_singleton] at ha; simp [ha]))
    hirr (Submodule.subset_span (by simp)) (evalPoly_X_list sqrt2).symm hdeg
  refine ⟨h.1 sqrt2 (by simp), ?_⟩
  exact h.2 q2Ops.toVector q2Ops_toVector_add q2Ops_toVector_smul
    (fun _ _ => some []) (fun rows target _ => rfl) sqrt2 (by simp)
